import Mathlib

/-!
Verification development for the RAGroom ingestion pipeline
(`RagIngestTool.execute` and its helpers `getEmbedding`, `canLoadAsText`,
`semanticChunks`, together with the LanceDB delete-filter construction).

The TypeScript source is shallowly embedded: every I/O interaction
(filesystem walk and stat results, file contents, the sbd sentence
detector's output, the Ollama embedding service's responses, engine
failures of the LanceDB operations) is passed in explicitly as data, and
the orchestrator is a pure state-transformation over that data.  JavaScript
numbers appear only through `Number.isFinite`, `NaN` propagation and one
division, so they are modelled by a small sum type whose finite payload is
a rational.  Vector records additionally carry a ghost `runId` field (a
history variable recording which run inserted the record); the code never
reads it, and it exists only so that provenance invariants can be stated.
-/

set_option maxRecDepth 10000

/-- A JavaScript runtime value as classified by `Number.isFinite`: a finite
double (payload abstracted as a rational), `NaN`, one of the infinities, or
a non-numeric value (string, null, object, ...). -/
inductive JsVal where
  | num (q : ℚ)
  | nan
  | posInf
  | negInf
  | nonNum
  deriving DecidableEq

/-- Model of JavaScript `Number.isFinite`: true exactly on finite numbers
(non-numbers are not coerced). -/
def JsVal.isFinite : JsVal → Bool
  | .num _ => true
  | _ => false

/-- Model of the JavaScript comparison `v < c` for a numeric constant `c`:
any comparison with `NaN` is false.  (The `nonNum` case never arises at the
one call site, which compares a division result.) -/
def jsLt : JsVal → ℚ → Bool
  | .num q, c => decide (q < c)
  | .nan, _ => false
  | .posInf, _ => false
  | .negInf, _ => true
  | .nonNum, _ => false

/-- Model of JavaScript division `a / b` for non-negative integer operands:
`0 / 0` is `NaN`, `a / 0` with `a > 0` is `Infinity`, otherwise the exact
quotient (the claims under study never depend on double rounding). -/
def jsDivNat (a b : Nat) : JsVal :=
  if b = 0 then (if a = 0 then .nan else .posInf) else .num ((a : ℚ) / (b : ℚ))

/-- One response of the Ollama embedding service, as observed by
`getEmbedding`'s destructuring `const { embedding } = await ollama.embeddings(...)`:
the request either throws (`err`), or resolves with an `embedding` field
that is an array of values (`ok (some xs)`) or not an array at all,
including a missing field (`ok none`). -/
inductive OllamaResult where
  | err
  | ok (embedding : Option (List JsVal))
  deriving DecidableEq

/-- The retry loop of `getEmbedding` (rag-ingest): attempt `i` with `rem`
attempts remaining.  A response whose `embedding` is an array with every
element finite is returned at once; a throw, a non-array, or an array
containing a non-finite element falls through to the next attempt. -/
def getEmbeddingGo (svc : Nat → OllamaResult) : Nat → Nat → Option (List JsVal)
  | _, 0 => none
  | i, rem + 1 =>
    match svc i with
    | .ok (some xs) =>
      if xs.all JsVal.isFinite then some xs else getEmbeddingGo svc (i + 1) rem
    | _ => getEmbeddingGo svc (i + 1) rem

/-- `getEmbedding(text, retries = 3)`: runs the service (given as the stream
of responses its successive calls would produce) for at most `retries`
attempts and returns the first validated vector, or `null` (here `none`)
when the budget is exhausted.  The loop never lets an exception escape. -/
def getEmbedding (svc : Nat → OllamaResult) (retries : Nat := 3) : Option (List JsVal) :=
  getEmbeddingGo svc 0 retries

/-- A response passes `getEmbedding`'s validation when its `embedding`
field is an array all of whose elements are finite numbers. -/
def validResp : OllamaResult → Bool
  | .ok (some xs) => xs.all JsVal.isFinite
  | _ => false

/-- Model of JavaScript `String.prototype.trim`: strip whitespace from
both ends (structural on the character list, so it evaluates by
reduction). -/
def jsTrim (s : String) : String :=
  ⟨((s.data.dropWhile Char.isWhitespace).reverse.dropWhile Char.isWhitespace).reverse⟩

/-- The accumulation loop of `semanticChunks`: `buf` is the running buffer.
`if (buf.length + s.length < size) buf += (buf ? " " : "") + s;
else { if (buf) yield buf.trim(); buf = s; }` and a final
`if (buf) yield buf.trim();`. -/
def chunksGo (size : Nat) : List String → String → List String
  | [], buf => if buf = "" then [] else [jsTrim buf]
  | s :: rest, buf =>
    if buf.length + s.length < size then
      chunksGo size rest (if buf = "" then s else buf ++ " " ++ s)
    else if buf = "" then chunksGo size rest s
    else jsTrim buf :: chunksGo size rest s

/-- `semanticChunks(text, size = 1000)`, parameterised by the sentence list
that the external sbd sentence-boundary detector produces for the text
(`sbd.sentences(text, { newline_boundaries: true })` is an external npm
dependency and enters the model only through its output). -/
def semanticChunks (sentences : List String) (size : Nat := 1000) : List String :=
  chunksGo size sentences ""

/-- One step of the chunker as the specification words it: greedily
accumulate sentences into a running buffer separated by single spaces; when
appending the next sentence would make the buffer length reach or exceed
the target size, flush the current buffer as one chunk (trimmed) and start
a new buffer with that sentence.  The accumulator is (flushed chunks,
current buffer). -/
def chunkerSpecStep (size : Nat) (acc : List String × String) (s : String) :
    List String × String :=
  if acc.2.length + s.length ≥ size then
    ((if acc.2 = "" then acc.1 else acc.1 ++ [jsTrim acc.2]), s)
  else (acc.1, if acc.2 = "" then s else acc.2 ++ " " ++ s)

/-- The chunker as the specification words it: fold the sentences through
`chunkerSpecStep` and flush any remaining buffer (trimmed) at end of
input.  This is the reference greedy definition that `semanticChunks` is
compared against. -/
def chunkerSpec (sentences : List String) (size : Nat) : List String :=
  let acc := sentences.foldl (chunkerSpecStep size) ([], "")
  if acc.2 = "" then acc.1 else acc.1 ++ [jsTrim acc.2]

/-- Chunk count of the greedy loop as a function of the sentence lengths
only: `b` is the current buffer length (the empty buffer is length 0, and
a buffer is empty iff its length is 0).  Used to prove monotonicity of the
number of chunks in the target size. -/
def gcount (n : Nat) : List Nat → Nat → Nat
  | [], b => if b = 0 then 0 else 1
  | l :: rest, b =>
    if b + l < n then gcount n rest (if b = 0 then l else b + 1 + l)
    else if b = 0 then gcount n rest l
    else 1 + gcount n rest l

/-- Number of U+FFFD replacement characters in a decoded string
(`(str.match(/�/g) || []).length`). -/
def countReplacement (s : String) : Nat :=
  s.data.countP (fun c => decide (c = '�'))

/-- `canLoadAsText`: inspect the first 512 bytes for a NUL byte, then decode
the whole buffer as UTF-8 and require the replacement-character ratio to be
below 0.1.  The UTF-8 decoder (`buf.toString("utf8")`) is passed in as a
function; the empty buffer always decodes to the empty string. -/
def canLoadAsText (decodeUtf8 : List Nat → String) (bytes : List Nat) : Bool :=
  if (bytes.take 512).any (fun b => decide (b = 0)) then false
  else
    let str := decodeUtf8 bytes
    jsLt (jsDivNat (countReplacement str) str.length) (1 / 10)

/-- The single-quote character used to delimit the value in the delete
filter expression. -/
def quoteChar : Char := '\''

/-- The backslash character, the only character the source escapes. -/
def backslashChar : Char := '\\'

/-- Character-level body of `file.replace(/\\/g, "\\\\")`: every backslash
is doubled, every other character (including the quote) is left alone. -/
def escapeChars : List Char → List Char
  | [] => []
  | c :: rest =>
    if c = backslashChar then backslashChar :: backslashChar :: escapeChars rest
    else c :: escapeChars rest

/-- `file.replace(/\\/g, "\\\\")` as a string transformation. -/
def escapeBackslashes (s : String) : String := ⟨escapeChars s.data⟩

/-- The textual filter expression the source interpolates the path into:
`source = '<escaped path>'`. -/
def deleteFilter (path : String) : String :=
  "source = " ++ quoteChar.toString ++ escapeBackslashes path ++ quoteChar.toString

/-- Parse the character stream after the opening quote of the filter's
string literal, under the escaping convention the source's backslash
doubling presumes (a backslash escapes the next character): the literal
ends at the first unescaped quote, which must be the last character of the
filter.  Returns the literal's value, or `none` when the filter is
malformed (unterminated literal, or trailing characters after an early
terminating quote). -/
def parseLiteralChars : List Char → Option (List Char)
  | [] => none
  | c :: rest =>
    if c = backslashChar then
      match rest with
      | [] => none
      | d :: rest2 => (parseLiteralChars rest2).map (fun v => d :: v)
    else if c = quoteChar then
      if rest = [] then some [] else none
    else (parseLiteralChars rest).map (fun v => c :: v)

/-- Strip an expected leading character sequence, or fail. -/
def stripLead : List Char → List Char → Option (List Char)
  | [], rest => some rest
  | _ :: _, [] => none
  | p :: ps, c :: cs => if c = p then stripLead ps cs else none

/-- Parse a delete filter of the form `source = '<literal>'`: the filter is
well-formed exactly when this returns `some value`, in which case the
engine deletes the records whose `source` equals the parsed value; a
malformed filter makes the engine call throw. -/
def parseDeleteFilter (filter : String) : Option String :=
  match stripLead ("source = " ++ quoteChar.toString).data filter.data with
  | none => none
  | some rest => (parseLiteralChars rest).map (fun cs => ⟨cs⟩)

/-- A persisted vector record: `{vector, text, source}` plus the ghost
`runId` history variable (which run inserted it; never read by the code). -/
structure VecRecord where
  vector : List JsVal
  text : String
  source : String
  runId : Nat
  deriving DecidableEq

/-- The vector table: whether it exists on disk, and its records in
insertion order.  By convention a non-existent table has no records. -/
structure IndexState where
  tableExists : Bool
  records : List VecRecord
  deriving DecidableEq

/-- A cache entry of `processed.json`: `{ mtime: stats.mtimeMs, fileId }`. -/
structure CacheEntry where
  mtime : Int
  fileId : String
  deriving DecidableEq

/-- The processed-files cache, a JS object keyed by path.  Modelled as an
association list with first-match lookup; assignment shadows by consing. -/
abbrev Cache := List (String × CacheEntry)

/-- `processedFiles[file]` lookup. -/
def cacheLookup (c : Cache) (f : String) : Option CacheEntry :=
  match c.find? (fun p => decide (p.1 = f)) with
  | none => none
  | some p => some p.2

/-- `processedFiles[file] = e` assignment (shadowing cons; only lookup
semantics matter). -/
def cacheSet (c : Cache) (f : String) (e : CacheEntry) : Cache :=
  (f, e) :: c

/-- The work-set computation: a walked file is kept exactly when it has no
cache entry or its stored modification time differs from the current stat
(`!processedFiles[file] || processedFiles[file].mtime !== stats.mtimeMs`). -/
def staleFilter (cache : Cache) (files : List (String × Int)) : List (String × Int) :=
  files.filter (fun fm =>
    match cacheLookup cache fm.1 with
    | none => true
    | some e => decide (¬e.mtime = fm.2))

/-- Everything one run of `execute` observes from the outside world, passed
in explicitly: the walk and stat results (in traversal order), the
`canLoadAsText` verdicts, file contents, the sbd sentence detector, the
embedding client's outcome per prompt (its internal retries included),
failure oracles for the engine and filesystem calls that can throw inside
the per-file try/catch, the hash used for `fileId`, the point (if any) at
which the abort signal is observed at the top of the file loop, and whether
the final cache write fails. -/
structure RunEnv where
  files : List (String × Int)
  loadable : String → Bool
  readFails : String → Bool
  content : String → String
  sentences : String → List String
  embed : String → Option (List JsVal)
  deleteFails : String → Bool
  addFails : String → Bool
  hashFn : String → String
  abortAfter : Option Nat
  writeFails : Bool

/-- The chunks computed for one file: `[...semanticChunks(content)]` with
the default size 1000. -/
def chunksOf (env : RunEnv) (f : String) : List String :=
  semanticChunks (env.sentences (env.content f)) 1000

/-- The per-file embedding loop: each chunk is embedded; a chunk whose
embedding fails is dropped, the others become records (in chunk order)
tagged with the current run. -/
def embedBatch (env : RunEnv) (rid : Nat) (f : String) (chunks : List String) :
    List VecRecord :=
  chunks.filterMap (fun c =>
    (env.embed c).map (fun v => { vector := v, text := c, source := f, runId := rid }))

/-- The record batch a successful processing of file `f` inserts in this
run. -/
def committedData (env : RunEnv) (rid : Nat) (f : String) : List VecRecord :=
  embedBatch env rid f (chunksOf env f)

/-- Per-file outcome, mirroring the spinner reports (`warn` for a skipped
non-text file, `fail` for a caught per-file exception, `succeed` with the
inserted batch for a committed file). -/
inductive FileOutcome where
  | skippedNonText
  | failed
  | committed (data : List VecRecord)
  deriving DecidableEq

/-- What one iteration of the file loop does, computed before the state is
updated: `skip` (non-text, nothing changes), `fail` (exception caught after
the given partial effects on the records), or `commit` (records updated,
batch inserted, cache entry to be written).  In `fail` and `commit`,
`records` is the table contents afterwards, `calls` the number of
embedding-client invocations made, `muts` the number of applied index
mutations. -/
inductive FileAction where
  | skip
  | fail (records : List VecRecord) (calls muts : Nat)
  | commit (records : List VecRecord) (calls muts : Nat) (data : List VecRecord)
  deriving DecidableEq

/-- The delete step for file `f` (`if (tableExists) await table.delete(...)`):
skipped when the table was created this run; otherwise the engine call
throws (`none`) on an oracle failure or a malformed filter, and otherwise
removes the records whose `source` equals the filter's parsed value.  On
success the second component counts the applied mutation. -/
def delResult (env : RunEnv) (te : Bool) (records : List VecRecord) (f : String) :
    Option (List VecRecord × Nat) :=
  if te then
    if env.deleteFails f then none
    else
      match parseDeleteFilter (deleteFilter f) with
      | none => none
      | some v => some (records.filter (fun r => decide (¬r.source = v)), 1)
  else some (records, 0)

/-- The body of the per-file try/catch, for file `f` against the current
records, with `te` the table-existed-before-this-run flag: check
`canLoadAsText`; read the content (may throw); chunk it; run the delete
step; embed every chunk, dropping failures; insert the batch if non-empty
(may throw); then commit. -/
def fileAction (env : RunEnv) (rid : Nat) (te : Bool) (records : List VecRecord)
    (f : String) : FileAction :=
  if env.loadable f then
    if env.readFails f then .fail records 0 0
    else
      match delResult env te records f with
      | none => .fail records 0 0
      | some (recs1, dmut) =>
        let data := embedBatch env rid f (chunksOf env f)
        if data = [] then .commit recs1 (chunksOf env f).length dmut data
        else if env.addFails f then .fail recs1 (chunksOf env f).length dmut
        else .commit (recs1 ++ data) (chunksOf env f).length (dmut + 1) data
  else .skip

/-- The mutable state threaded through the file loop: the in-memory cache,
the table records, the counters, and the per-file reports. -/
structure LoopSt where
  cache : Cache
  records : List VecRecord
  embedCalls : Nat
  mutations : Nat
  reports : List (String × FileOutcome)
  deriving DecidableEq

/-- One iteration of the file loop: apply the file's action to the loop
state.  Only a commit writes the cache entry `{ mtime, fileId }`. -/
def processFile (env : RunEnv) (rid : Nat) (te : Bool) (st : LoopSt)
    (fm : String × Int) : LoopSt :=
  match fileAction env rid te st.records fm.1 with
  | .skip => { st with reports := st.reports ++ [(fm.1, .skippedNonText)] }
  | .fail recs c m =>
    { st with
      records := recs
      embedCalls := st.embedCalls + c
      mutations := st.mutations + m
      reports := st.reports ++ [(fm.1, .failed)] }
  | .commit recs c m data =>
    { cache := cacheSet st.cache fm.1 { mtime := fm.2, fileId := env.hashFn fm.1 }
      records := recs
      embedCalls := st.embedCalls + c
      mutations := st.mutations + m
      reports := st.reports ++ [(fm.1, .committed data)] }

/-- The bootstrap record `{vector: sampleEmbedding, text: "sample",
source: "sample"}` the table is created with. -/
def sampleRecord (v : List JsVal) (rid : Nat) : VecRecord :=
  { vector := v, text := "sample", source := "sample", runId := rid }

/-- Terminal status of a run: the early `All files are up to date.` return,
the final `Successfully ingested N files.` return, or the outer catch
(`Ingestion failed`). -/
inductive RunStatus where
  | upToDate
  | finished (count : Nat)
  | fatal
  deriving DecidableEq

/-- Observable result of one run: status, the persisted cache (the on-disk
cache is only replaced by a successful final write), the table state, how
many embedding-client calls were made, how many index mutations (create /
delete / add) were applied, whether the store was opened at all, and the
per-file reports. -/
structure RunResult where
  status : RunStatus
  cache : Cache
  index : IndexState
  embedCalls : Nat
  indexMutations : Nat
  openedIndex : Bool
  reports : List (String × FileOutcome)
  deriving DecidableEq

/-- The work set a run computes (`filesToProcess`). -/
def workOf (env : RunEnv) (cache0 : Cache) : List (String × Int) :=
  staleFilter cache0 env.files

/-- The part of the work set actually iterated: the whole work set, or the
prefix processed before the abort signal is observed at the top of the
loop. -/
def workEffOf (env : RunEnv) (cache0 : Cache) : List (String × Int) :=
  match env.abortAfter with
  | none => workOf env cache0
  | some k => (workOf env cache0).take k

/-- The loop state after the file loop has run, starting from the freshly
opened (or created) table contents and counters. -/
def loopStateOf (env : RunEnv) (rid : Nat) (te : Bool) (cache0 : Cache)
    (recs0 : List VecRecord) (calls0 muts0 : Nat) : LoopSt :=
  (workEffOf env cache0).foldl (processFile env rid te)
    { cache := cache0, records := recs0, embedCalls := calls0
      mutations := muts0, reports := [] }

/-- The `Successfully ingested N files.` result (the reported count is the
work-set size, whatever happened per file). -/
def finishResult (work : List (String × Int)) (st : LoopSt) : RunResult :=
  { status := .finished work.length, cache := st.cache
    index := { tableExists := true, records := st.records }
    embedCalls := st.embedCalls, indexMutations := st.mutations
    openedIndex := true, reports := st.reports }

/-- The result when the final cache write throws: the outer catch reports
failure and the on-disk cache is still the old one, while the index
mutations already applied persist. -/
def writeFailResult (cache0 : Cache) (st : LoopSt) : RunResult :=
  { status := .fatal, cache := cache0
    index := { tableExists := true, records := st.records }
    embedCalls := st.embedCalls, indexMutations := st.mutations
    openedIndex := true, reports := st.reports }

/-- `RagIngestTool.execute`, from the directory walk onward (parameter
validation and the pre-start abort check touch nothing modelled here).
Compute the work set; if it is empty, return `All files are up to date.`
without opening the store.  Otherwise open the store; if the table is
missing, embed the sentinel text `"sample"` (a failure here is fatal) and
create the table with the one sample record.  Then run the file loop over
the work set (truncated at the point where the abort signal is observed,
if any), and finally persist the cache (a failed write is caught by the
outer catch and leaves the old cache on disk). -/
def execute (env : RunEnv) (rid : Nat) (cache0 : Cache) (index0 : IndexState) :
    RunResult :=
  if workOf env cache0 = [] then
    { status := .upToDate, cache := cache0, index := index0, embedCalls := 0
      indexMutations := 0, openedIndex := false, reports := [] }
  else
    match (if index0.tableExists then some (index0.records, 0, 0)
           else
             match env.embed "sample" with
             | none => none
             | some v => some ([sampleRecord v rid], 1, 1) :
        Option (List VecRecord × Nat × Nat)) with
    | none =>
      { status := .fatal, cache := cache0, index := index0, embedCalls := 1
        indexMutations := 0, openedIndex := true, reports := [] }
    | some (recs0, calls0, muts0) =>
      let stF := loopStateOf env rid index0.tableExists cache0 recs0 calls0 muts0
      if env.writeFails then writeFailResult cache0 stF
      else finishResult (workOf env cache0) stF

/-- A file whose processing completes without any exception: it is
text-loadable, its read does not throw, the engine delete neither fails
nor receives a malformed filter (its path contains no quote character),
and the batch insert does not throw. -/
abbrev goodFile (env : RunEnv) (f : String) : Prop :=
  env.loadable f = true ∧ env.readFails f = false ∧ env.deleteFails f = false ∧
    quoteChar ∉ f.data ∧ env.addFails f = false

/-- The records of the table whose `source` is the given path. -/
def sourceRecs (recs : List VecRecord) (f : String) : List VecRecord :=
  recs.filter (fun r => decide (r.source = f))

/-- All records sharing a source were inserted by the same run: no source
ever mixes records of two different runs. -/
abbrev SameRunPerSource (recs : List VecRecord) : Prop :=
  ∀ r ∈ recs, ∀ s ∈ recs, r.source = s.source → r.runId = s.runId

/-- Invariant carried through the file loop for the replace-on-change
claim, relative to the records the loop started from (`initRecs`): every
committed file's source holds exactly its batch and none of the initial
records, and every record is initial or was inserted by this run for an
already-committed source. -/
abbrev LoopInv (rid : Nat) (initRecs : List VecRecord) (st : LoopSt) : Prop :=
  (∀ f data, (f, FileOutcome.committed data) ∈ st.reports →
    sourceRecs st.records f = data ∧ ∀ r ∈ initRecs, r.source = f → r ∉ st.records) ∧
  (∀ r ∈ st.records, r ∈ initRecs ∨
    (r.runId = rid ∧ ∃ data, (r.source, FileOutcome.committed data) ∈ st.reports))

/-- A one-file environment in which everything succeeds, used to
instantiate theorems with hypotheses at a concrete input. -/
def wEnvA : RunEnv :=
  { files := [("a", 5)]
    loadable := fun _ => true
    readFails := fun _ => false
    content := fun _ => "Hi."
    sentences := fun t => [t]
    embed := fun _ => some [JsVal.num 1]
    deleteFails := fun _ => false
    addFails := fun _ => false
    hashFn := fun s => s
    abortAfter := none
    writeFails := false }

/-- A ten-file environment: nine well-behaved text files and one file
(`bin`) that fails the plain-text heuristic, used to instantiate theorems
with hypotheses at a concrete input. -/
def wEnvTen : RunEnv :=
  { files := [("t1", 1), ("t2", 1), ("t3", 1), ("t4", 1), ("t5", 1),
              ("t6", 1), ("t7", 1), ("t8", 1), ("t9", 1), ("bin", 1)]
    loadable := fun f => decide (¬f = "bin")
    readFails := fun _ => false
    content := fun _ => "Hello there."
    sentences := fun t => [t]
    embed := fun _ => some [JsVal.num 1, JsVal.num 2]
    deleteFails := fun _ => false
    addFails := fun _ => false
    hashFn := fun s => s
    abortAfter := none
    writeFails := false }

/-- A three-file environment: one well-behaved text file, one file whose
engine delete throws, and one file whose batch insert throws, used to
instantiate theorems with hypotheses at a concrete input. -/
def wEnvFail : RunEnv :=
  { files := [("t1", 1), ("dbad", 1), ("abad", 1)]
    loadable := fun _ => true
    readFails := fun _ => false
    content := fun _ => "Hello there."
    sentences := fun t => [t]
    embed := fun _ => some [JsVal.num 1]
    deleteFails := fun f => decide (f = "dbad")
    addFails := fun f => decide (f = "abad")
    hashFn := fun s => s
    abortAfter := none
    writeFails := false }

theorem string_length_eq_zero (s : String) : s.length = 0 ↔ s = "" := by
  cases s with
  | mk d => simp [String.length, String.ext_iff]

theorem getEmbeddingGo_all_finite (svc : Nat → OllamaResult) :
    ∀ rem i xs, getEmbeddingGo svc i rem = some xs → xs.all JsVal.isFinite = true := by
  intro rem
  induction rem with
  | zero => intro i xs h; simp [getEmbeddingGo] at h
  | succ n ih =>
    intro i xs h
    simp only [getEmbeddingGo] at h
    cases hs : svc i with
    | err => rw [hs] at h; exact ih _ _ h
    | ok emb =>
      cases emb with
      | none => rw [hs] at h; exact ih _ _ h
      | some ys =>
        rw [hs] at h
        by_cases hall : ys.all JsVal.isFinite
        · simp only [hall, if_true, Option.some.injEq] at h
          exact h ▸ hall
        · simp only [hall, if_false, Bool.false_eq_true] at h
          exact ih _ _ h

theorem getEmbeddingGo_exhausted (svc : Nat → OllamaResult) :
    ∀ rem i, (∀ j, i ≤ j → j < i + rem → validResp (svc j) = false) →
      getEmbeddingGo svc i rem = none := by
  intro rem
  induction rem with
  | zero => intro i _; rfl
  | succ n ih =>
    intro i h
    have hi : validResp (svc i) = false := h i le_rfl (by omega)
    simp only [getEmbeddingGo]
    cases hs : svc i with
    | err => exact ih _ (fun j h1 h2 => h j (by omega) (by omega))
    | ok emb =>
      cases emb with
      | none => exact ih _ (fun j h1 h2 => h j (by omega) (by omega))
      | some ys =>
        rw [hs] at hi
        simp only [validResp] at hi
        simp only [hi, if_false, Bool.false_eq_true]
        exact ih _ (fun j h1 h2 => h j (by omega) (by omega))

theorem getEmbeddingGo_first_valid (svc : Nat → OllamaResult) :
    ∀ rem k i xs, k < rem →
      (∀ j, j < k → validResp (svc (i + j)) = false) →
      svc (i + k) = OllamaResult.ok (some xs) → xs.all JsVal.isFinite = true →
      getEmbeddingGo svc i rem = some xs := by
  intro rem
  induction rem with
  | zero => intro k i xs hk; omega
  | succ n ih =>
    intro k i xs hk hprev hcur hfin
    cases k with
    | zero =>
      simp only [Nat.add_zero] at hcur
      simp only [getEmbeddingGo, hcur, hfin, if_true]
    | succ k2 =>
      have h0 : validResp (svc i) = false := by
        have := hprev 0 (by omega)
        simpa using this
      simp only [getEmbeddingGo]
      have hstep : getEmbeddingGo svc (i + 1) n = some xs := by
        apply ih k2 (i + 1) xs (by omega)
        · intro j hj
          have := hprev (j + 1) (by omega)
          have harith : i + (j + 1) = i + 1 + j := by omega
          rwa [harith] at this
        · have harith : i + (k2 + 1) = i + 1 + k2 := by omega
          rwa [harith] at hcur
        · exact hfin
      cases hs : svc i with
      | err => exact hstep
      | ok emb =>
        cases emb with
        | none => exact hstep
        | some ys =>
          rw [hs] at h0
          simp only [validResp] at h0
          simp only [h0, if_false, Bool.false_eq_true]
          exact hstep

theorem getEmbeddingGo_congr (svc svcB : Nat → OllamaResult) :
    ∀ rem i, (∀ j, i ≤ j → j < i + rem → svc j = svcB j) →
      getEmbeddingGo svc i rem = getEmbeddingGo svcB i rem := by
  intro rem
  induction rem with
  | zero => intro i _; rfl
  | succ n ih =>
    intro i h
    have hi : svc i = svcB i := h i le_rfl (by omega)
    simp only [getEmbeddingGo, hi]
    have hrest := ih (i + 1) (fun j h1 h2 => h j (by omega) (by omega))
    cases svcB i with
    | err => exact hrest
    | ok emb =>
      cases emb with
      | none => exact hrest
      | some ys =>
        by_cases hall : ys.all JsVal.isFinite
        · simp [hall]
        · simp [hall, hrest]

theorem stripLead_append (p t : List Char) : stripLead p (p ++ t) = some t := by
  induction p with
  | nil => rfl
  | cons c ps ih => simp [stripLead, ih]

theorem quoteChar_ne_backslashChar : quoteChar ≠ backslashChar := by decide

theorem parseLiteralChars_cons_not_backslash (c : Char) (rest : List Char)
    (hb : ¬c = backslashChar) :
    parseLiteralChars (c :: rest) =
      if c = quoteChar then (if rest = [] then some [] else none)
      else (parseLiteralChars rest).map (fun v => c :: v) := by
  rw [parseLiteralChars.eq_def]
  simp only [if_neg hb]

theorem parseLiteralChars_escape_of_no_quote :
    ∀ cs : List Char, quoteChar ∉ cs →
      parseLiteralChars (escapeChars cs ++ [quoteChar]) = some cs := by
  intro cs
  induction cs with
  | nil =>
    intro _
    simp [escapeChars, parseLiteralChars, quoteChar_ne_backslashChar]
  | cons c rest ih =>
    intro h
    have hq : ¬c = quoteChar := by
      intro e
      exact h (e ▸ List.mem_cons_self c rest)
    have hr : quoteChar ∉ rest := fun m => h (List.mem_cons_of_mem _ m)
    by_cases hb : c = backslashChar
    · subst hb
      simp [escapeChars, parseLiteralChars, ih hr]
    · simp only [escapeChars, if_neg hb, List.cons_append]
      rw [parseLiteralChars_cons_not_backslash c _ hb, if_neg hq, ih hr]
      rfl

theorem parseLiteralChars_escape_of_quote :
    ∀ cs : List Char, quoteChar ∈ cs →
      parseLiteralChars (escapeChars cs ++ [quoteChar]) = none := by
  intro cs
  induction cs with
  | nil => intro h; simp at h
  | cons c rest ih =>
    intro h
    by_cases hc : c = quoteChar
    · subst hc
      have hb : ¬quoteChar = backslashChar := quoteChar_ne_backslashChar
      simp only [escapeChars, if_neg hb, List.cons_append]
      rw [parseLiteralChars_cons_not_backslash quoteChar _ hb, if_pos rfl]
      have hne : escapeChars rest ++ [quoteChar] ≠ [] := by simp
      rw [if_neg hne]
    · have hr : quoteChar ∈ rest := by
        cases List.mem_cons.mp h with
        | inl e => exact absurd e.symm hc
        | inr m => exact m
      by_cases hb : c = backslashChar
      · subst hb
        simp [escapeChars, parseLiteralChars, ih hr]
      · simp only [escapeChars, if_neg hb, List.cons_append]
        rw [parseLiteralChars_cons_not_backslash c _ hb, if_neg hc, ih hr]
        rfl

theorem data_deleteFilter (f : String) :
    (deleteFilter f).data =
      ("source = " ++ quoteChar.toString).data ++ (escapeChars f.data ++ [quoteChar]) := by
  simp [deleteFilter, String.data_append, escapeBackslashes, List.append_assoc]
  rfl

theorem parseDeleteFilter_deleteFilter (f : String) :
    parseDeleteFilter (deleteFilter f) =
      if quoteChar ∈ f.data then none else some f := by
  unfold parseDeleteFilter
  rw [data_deleteFilter, stripLead_append]
  by_cases hq : quoteChar ∈ f.data
  · simp [hq, parseLiteralChars_escape_of_quote _ hq]
  · simp only [hq, if_false]
    rw [parseLiteralChars_escape_of_no_quote _ hq]
    cases f with
    | mk d => rfl

theorem cacheLookup_set_self (c : Cache) (f : String) (e : CacheEntry) :
    cacheLookup (cacheSet c f e) f = some e := by
  simp [cacheLookup, cacheSet, List.find?]

theorem cacheLookup_set_other (c : Cache) (f g : String) (e : CacheEntry)
    (h : ¬g = f) :
    cacheLookup (cacheSet c f e) g = cacheLookup c g := by
  have : ¬f = g := fun e2 => h e2.symm
  simp [cacheLookup, cacheSet, List.find?, this]

theorem delResult_of_good (env : RunEnv) (te : Bool) (records : List VecRecord)
    (f : String) (h3 : env.deleteFails f = false) (h4 : quoteChar ∉ f.data) :
    delResult env te records f =
      some ((if te then records.filter (fun r => decide (¬r.source = f)) else records),
        (if te then 1 else 0)) := by
  unfold delResult
  cases te with
  | false => simp
  | true =>
    simp only [if_true, h3, Bool.false_eq_true, if_false,
      parseDeleteFilter_deleteFilter, h4]

theorem delResult_some (env : RunEnv) (te : Bool) (records : List VecRecord)
    (f : String) (recs1 : List VecRecord) (dmut : Nat)
    (h : delResult env te records f = some (recs1, dmut)) :
    recs1 = (if te then records.filter (fun r => decide (¬r.source = f)) else records) := by
  unfold delResult at h
  cases te with
  | false =>
    simp only [Bool.false_eq_true, if_false, Option.some.injEq, Prod.mk.injEq] at h
    simp [h.1.symm]
  | true =>
    simp only [if_true] at h
    by_cases hd : env.deleteFails f
    · simp [hd] at h
    · simp only [hd, Bool.false_eq_true, if_false, parseDeleteFilter_deleteFilter] at h
      by_cases hq : quoteChar ∈ f.data
      · simp [hq] at h
      · simp only [hq, if_false, Option.some.injEq, Prod.mk.injEq] at h
        simp [h.1.symm]

theorem processFile_skip (env : RunEnv) (rid : Nat) (te : Bool) (st : LoopSt)
    (fm : String × Int) (h : env.loadable fm.1 = false) :
    processFile env rid te st fm =
      { st with reports := st.reports ++ [(fm.1, FileOutcome.skippedNonText)] } := by
  simp [processFile, fileAction, h]

theorem processFile_readFail (env : RunEnv) (rid : Nat) (te : Bool) (st : LoopSt)
    (fm : String × Int) (h1 : env.loadable fm.1 = true) (h2 : env.readFails fm.1 = true) :
    processFile env rid te st fm =
      { st with reports := st.reports ++ [(fm.1, FileOutcome.failed)] } := by
  simp [processFile, fileAction, h1, h2]

theorem processFile_good (env : RunEnv) (rid : Nat) (te : Bool) (st : LoopSt)
    (f : String) (m : Int) (h : goodFile env f) :
    processFile env rid te st (f, m) =
      { cache := cacheSet st.cache f { mtime := m, fileId := env.hashFn f }
        records :=
          (if te then st.records.filter (fun r => decide (¬r.source = f)) else st.records)
            ++ committedData env rid f
        embedCalls := st.embedCalls + (chunksOf env f).length
        mutations := st.mutations +
          ((if te then 1 else 0) + (if committedData env rid f = [] then 0 else 1))
        reports := st.reports ++ [(f, FileOutcome.committed (committedData env rid f))] } := by
  obtain ⟨h1, h2, h3, h4, h5⟩ := h
  simp only [processFile, fileAction, h1, if_true, h2, Bool.false_eq_true, if_false,
    delResult_of_good env te st.records f h3 h4]
  by_cases hd : committedData env rid f = []
  · rw [show embedBatch env rid f (chunksOf env f) = committedData env rid f from rfl, hd]
    simp
  · rw [show embedBatch env rid f (chunksOf env f) = committedData env rid f from rfl]
    simp only [hd, if_false, h5, Bool.false_eq_true]

theorem fileAction_fail_records (env : RunEnv) (rid : Nat) (te : Bool)
    (records : List VecRecord) (f : String) (recs : List VecRecord) (c m : Nat)
    (h : fileAction env rid te records f = FileAction.fail recs c m) :
    recs = records ∨
      recs = records.filter (fun r => decide (¬r.source = f)) := by
  unfold fileAction at h
  by_cases h1 : env.loadable f
  · simp only [h1, if_true] at h
    by_cases h2 : env.readFails f
    · simp only [h2, if_true, FileAction.fail.injEq] at h
      exact Or.inl h.1.symm
    · simp only [h2, Bool.false_eq_true, if_false] at h
      cases hdel : delResult env te records f with
      | none =>
        rw [hdel] at h
        simp only [FileAction.fail.injEq] at h
        exact Or.inl h.1.symm
      | some p =>
        obtain ⟨recs1, dmut⟩ := p
        rw [hdel] at h
        have hrecs1 := delResult_some env te records f recs1 dmut hdel
        by_cases hd : embedBatch env rid f (chunksOf env f) = []
        · simp [hd] at h
        · simp only [hd, if_false] at h
          by_cases ha : env.addFails f
          · simp only [ha, if_true, FileAction.fail.injEq] at h
            cases te with
            | false =>
              simp only [Bool.false_eq_true, if_false] at hrecs1
              exact Or.inl (h.1.symm.trans hrecs1)
            | true =>
              simp only [if_true] at hrecs1
              exact Or.inr (h.1.symm.trans hrecs1)
          · simp [ha] at h
  · simp [h1] at h

theorem fileAction_commit_records (env : RunEnv) (rid : Nat) (te : Bool)
    (records : List VecRecord) (f : String) (recs : List VecRecord) (c m : Nat)
    (data : List VecRecord)
    (h : fileAction env rid te records f = FileAction.commit recs c m data) :
    data = embedBatch env rid f (chunksOf env f) ∧
      recs = (if te then records.filter (fun r => decide (¬r.source = f)) else records)
        ++ data := by
  unfold fileAction at h
  by_cases h1 : env.loadable f
  · simp only [h1, if_true] at h
    by_cases h2 : env.readFails f
    · simp [h2] at h
    · simp only [h2, Bool.false_eq_true, if_false] at h
      cases hdel : delResult env te records f with
      | none => rw [hdel] at h; simp at h
      | some p =>
        obtain ⟨recs1, dmut⟩ := p
        rw [hdel] at h
        have hrecs1 := delResult_some env te records f recs1 dmut hdel
        by_cases hd : embedBatch env rid f (chunksOf env f) = []
        · simp only [hd, if_true, FileAction.commit.injEq] at h
          obtain ⟨e1, e2, e3, e4⟩ := h
          subst e1
          subst e4
          exact ⟨hd.symm, by rw [List.append_nil]; exact hrecs1⟩
        · simp only [hd, if_false] at h
          by_cases ha : env.addFails f
          · simp [ha] at h
          · simp only [ha, Bool.false_eq_true, if_false, FileAction.commit.injEq] at h
            obtain ⟨e1, e2, e3, e4⟩ := h
            subst e1
            subst e4
            exact ⟨rfl, by rw [hrecs1]⟩
  · rw [if_neg h1] at h
    exact FileAction.noConfusion h

theorem embedBatch_mem (env : RunEnv) (rid : Nat) (f : String) (chunks : List String)
    (r : VecRecord) (h : r ∈ embedBatch env rid f chunks) :
    r.source = f ∧ r.runId = rid := by
  unfold embedBatch at h
  obtain ⟨c, _, hc⟩ := List.mem_filterMap.mp h
  cases he : env.embed c with
  | none => rw [he] at hc; simp at hc
  | some v =>
    rw [he] at hc
    have hrv : ({ vector := v, text := c, source := f, runId := rid } : VecRecord) = r := by
      simpa using hc
    rw [← hrv]
    exact ⟨rfl, rfl⟩

theorem processFile_cache_cases (env : RunEnv) (rid : Nat) (te : Bool) (st : LoopSt)
    (fm : String × Int) :
    (processFile env rid te st fm).cache = st.cache ∨
      (processFile env rid te st fm).cache =
        cacheSet st.cache fm.1 { mtime := fm.2, fileId := env.hashFn fm.1 } := by
  unfold processFile
  cases fileAction env rid te st.records fm.1 with
  | skip => exact Or.inl rfl
  | fail recs c m => exact Or.inl rfl
  | commit recs c m data => exact Or.inr rfl

theorem processFile_cache_lookup_other (env : RunEnv) (rid : Nat) (te : Bool)
    (st : LoopSt) (fm : String × Int) (g : String) (h : ¬g = fm.1) :
    cacheLookup (processFile env rid te st fm).cache g = cacheLookup st.cache g := by
  cases processFile_cache_cases env rid te st fm with
  | inl e => rw [e]
  | inr e => rw [e, cacheLookup_set_other _ _ _ _ h]

theorem processFile_reports_shape (env : RunEnv) (rid : Nat) (te : Bool) (st : LoopSt)
    (fm : String × Int) :
    ∃ o, (processFile env rid te st fm).reports = st.reports ++ [(fm.1, o)] := by
  unfold processFile
  cases fileAction env rid te st.records fm.1 with
  | skip => exact ⟨_, rfl⟩
  | fail recs c m => exact ⟨_, rfl⟩
  | commit recs c m data => exact ⟨_, rfl⟩

theorem processFile_records_keep (env : RunEnv) (rid : Nat) (te : Bool) (st : LoopSt)
    (fm : String × Int) (r : VecRecord) (hr : r ∈ st.records)
    (hs : ¬r.source = fm.1) : r ∈ (processFile env rid te st fm).records := by
  unfold processFile
  cases ha : fileAction env rid te st.records fm.1 with
  | skip => exact hr
  | fail recs c m =>
    cases fileAction_fail_records env rid te st.records fm.1 recs c m ha with
    | inl e => rw [e]; exact hr
    | inr e =>
      rw [e]
      simp only [List.mem_filter]
      exact ⟨hr, by simp [hs]⟩
  | commit recs c m data =>
    obtain ⟨_, hrecs⟩ := fileAction_commit_records env rid te st.records fm.1 recs c m data ha
    rw [hrecs]
    apply List.mem_append_left
    cases te with
    | false => simpa using hr
    | true =>
      simp only [if_true, List.mem_filter]
      exact ⟨hr, by simp [hs]⟩

theorem sourceRecs_append (a b : List VecRecord) (g : String) :
    sourceRecs (a ++ b) g = sourceRecs a g ++ sourceRecs b g :=
  List.filter_append a b

theorem sourceRecs_eq_nil (l : List VecRecord) (g : String)
    (h : ∀ r ∈ l, ¬r.source = g) : sourceRecs l g = [] :=
  List.filter_eq_nil_iff.mpr (fun r hr => by simp [h r hr])

theorem sourceRecs_eq_self (l : List VecRecord) (g : String)
    (h : ∀ r ∈ l, r.source = g) : sourceRecs l g = l :=
  List.filter_eq_self.mpr (fun r hr => by simp [h r hr])

theorem sourceRecs_filter_other (l : List VecRecord) (f g : String) (h : ¬g = f) :
    sourceRecs (l.filter (fun r => decide (¬r.source = f))) g = sourceRecs l g := by
  unfold sourceRecs
  rw [List.filter_filter]
  apply List.filter_congr
  intro r _
  by_cases hs : r.source = g
  · simp [hs, h]
  · simp [hs]

theorem foldPF_reports_mono (env : RunEnv) (rid : Nat) (te : Bool) :
    ∀ (l : List (String × Int)) (st : LoopSt) (x : String × FileOutcome),
      x ∈ st.reports → x ∈ (l.foldl (processFile env rid te) st).reports := by
  intro l
  induction l with
  | nil => intro st x h; exact h
  | cons hd rest ih =>
    intro st x h
    apply ih
    obtain ⟨o, ho⟩ := processFile_reports_shape env rid te st hd
    rw [ho]
    exact List.mem_append_left _ h

theorem foldPF_reports_origin (env : RunEnv) (rid : Nat) (te : Bool) :
    ∀ (l : List (String × Int)) (st : LoopSt) (p : String) (o : FileOutcome),
      (p, o) ∈ (l.foldl (processFile env rid te) st).reports →
      (p, o) ∈ st.reports ∨ p ∈ l.map Prod.fst := by
  intro l
  induction l with
  | nil => intro st p o h; exact Or.inl h
  | cons hd rest ih =>
    intro st p o h
    cases ih (processFile env rid te st hd) p o h with
    | inl hmem =>
      obtain ⟨o2, ho⟩ := processFile_reports_shape env rid te st hd
      rw [ho] at hmem
      cases List.mem_append.mp hmem with
      | inl h2 => exact Or.inl h2
      | inr h2 =>
        simp only [List.mem_singleton, Prod.mk.injEq] at h2
        exact Or.inr (by simp [h2.1])
    | inr hp => exact Or.inr (by simp [hp])

theorem foldPF_cache_frame (env : RunEnv) (rid : Nat) (te : Bool) :
    ∀ (l : List (String × Int)) (st : LoopSt) (g : String),
      g ∉ l.map Prod.fst →
      cacheLookup (l.foldl (processFile env rid te) st).cache g =
        cacheLookup st.cache g := by
  intro l
  induction l with
  | nil => intro st g _; rfl
  | cons hd rest ih =>
    intro st g hg
    have hg1 : ¬g = hd.1 := by
      intro e
      exact hg (by simp [e])
    have hg2 : g ∉ rest.map Prod.fst := fun m => hg (by simp [m])
    rw [List.foldl_cons, ih _ _ hg2, processFile_cache_lookup_other _ _ _ _ _ _ hg1]

theorem foldPF_commit_cache (env : RunEnv) (rid : Nat) (te : Bool) :
    ∀ (l : List (String × Int)) (st : LoopSt),
      (l.map Prod.fst).Nodup →
      ∀ fm ∈ l, goodFile env fm.1 →
        cacheLookup (l.foldl (processFile env rid te) st).cache fm.1 =
          some { mtime := fm.2, fileId := env.hashFn fm.1 } := by
  intro l
  induction l with
  | nil => intro st _ fm hm; simp at hm
  | cons hd rest ih =>
    intro st hnd fm hm hgood
    rw [List.map_cons, List.nodup_cons] at hnd
    cases hm with
    | head =>
      rw [List.foldl_cons, foldPF_cache_frame env rid te rest _ hd.1 hnd.1]
      obtain ⟨f, m⟩ := hd
      rw [processFile_good env rid te st f m hgood]
      exact cacheLookup_set_self _ _ _
    | tail _ hmem => exact ih _ hnd.2 fm hmem hgood

theorem foldPF_noncommit_cache (env : RunEnv) (rid : Nat) (te : Bool) :
    ∀ (l : List (String × Int)) (st : LoopSt),
      (l.map Prod.fst).Nodup →
      ∀ fm ∈ l, (env.loadable fm.1 = false ∨ env.readFails fm.1 = true) →
        cacheLookup (l.foldl (processFile env rid te) st).cache fm.1 =
          cacheLookup st.cache fm.1 := by
  intro l
  induction l with
  | nil => intro st _ fm hm; simp at hm
  | cons hd rest ih =>
    intro st hnd fm hm hnc
    rw [List.map_cons, List.nodup_cons] at hnd
    cases hm with
    | head =>
      rw [List.foldl_cons, foldPF_cache_frame env rid te rest _ hd.1 hnd.1]
      cases hnc with
      | inl hl => rw [processFile_skip env rid te st hd hl]
      | inr hrf =>
        by_cases hl : env.loadable hd.1
        · rw [processFile_readFail env rid te st hd hl hrf]
        · rw [processFile_skip env rid te st hd (by simpa using hl)]
    | tail _ hmem =>
      rw [List.foldl_cons]
      have hne : ¬fm.1 = hd.1 := by
        intro e
        exact hnd.1 (e ▸ List.mem_map_of_mem Prod.fst hmem)
      rw [ih _ hnd.2 fm hmem hnc, processFile_cache_lookup_other _ _ _ _ _ _ hne]

theorem foldPF_reports_committed (env : RunEnv) (rid : Nat) (te : Bool) :
    ∀ (l : List (String × Int)) (st : LoopSt),
      ∀ fm ∈ l, goodFile env fm.1 →
        (fm.1, FileOutcome.committed (committedData env rid fm.1)) ∈
          (l.foldl (processFile env rid te) st).reports := by
  intro l
  induction l with
  | nil => intro st fm hm; simp at hm
  | cons hd rest ih =>
    intro st fm hm hgood
    cases hm with
    | head =>
      rw [List.foldl_cons]
      apply foldPF_reports_mono
      obtain ⟨f, m⟩ := hd
      rw [processFile_good env rid te st f m hgood]
      exact List.mem_append_right _ (by simp)
    | tail _ hmem => exact ih _ fm hmem hgood

theorem foldPF_reports_skipped (env : RunEnv) (rid : Nat) (te : Bool) :
    ∀ (l : List (String × Int)) (st : LoopSt),
      ∀ fm ∈ l, env.loadable fm.1 = false →
        (fm.1, FileOutcome.skippedNonText) ∈
          (l.foldl (processFile env rid te) st).reports := by
  intro l
  induction l with
  | nil => intro st fm hm; simp at hm
  | cons hd rest ih =>
    intro st fm hm hl
    cases hm with
    | head =>
      rw [List.foldl_cons]
      apply foldPF_reports_mono
      rw [processFile_skip env rid te st hd hl]
      exact List.mem_append_right _ (by simp)
    | tail _ hmem => exact ih _ fm hmem hl

theorem foldPF_reports_failed (env : RunEnv) (rid : Nat) (te : Bool) :
    ∀ (l : List (String × Int)) (st : LoopSt),
      ∀ fm ∈ l, env.loadable fm.1 = true → env.readFails fm.1 = true →
        (fm.1, FileOutcome.failed) ∈
          (l.foldl (processFile env rid te) st).reports := by
  intro l
  induction l with
  | nil => intro st fm hm; simp at hm
  | cons hd rest ih =>
    intro st fm hm hl hrf
    cases hm with
    | head =>
      rw [List.foldl_cons]
      apply foldPF_reports_mono
      rw [processFile_readFail env rid te st hd hl hrf]
      exact List.mem_append_right _ (by simp)
    | tail _ hmem => exact ih _ fm hmem hl hrf

theorem foldPF_records_keep (env : RunEnv) (rid : Nat) (te : Bool) :
    ∀ (l : List (String × Int)) (st : LoopSt) (r : VecRecord),
      (∀ fm ∈ l, ¬r.source = fm.1) → r ∈ st.records →
      r ∈ (l.foldl (processFile env rid te) st).records := by
  intro l
  induction l with
  | nil => intro st r _ h; exact h
  | cons hd rest ih =>
    intro st r hsrc hr
    rw [List.foldl_cons]
    apply ih _ _ (fun fm hm => hsrc fm (List.mem_cons_of_mem _ hm))
    exact processFile_records_keep env rid te st hd r hr (hsrc hd (List.mem_cons_self _ _))

theorem LoopInv_step (env : RunEnv) (rid : Nat) (te : Bool) (initRecs : List VecRecord)
    (st : LoopSt) (fm : String × Int)
    (hfr : te = true → ∀ r ∈ initRecs, ¬r.runId = rid)
    (hini : te = false → ∀ r ∈ initRecs, ¬r.source = fm.1)
    (hnew : ∀ o, (fm.1, o) ∉ st.reports)
    (hinv : LoopInv rid initRecs st) :
    LoopInv rid initRecs (processFile env rid te st fm) := by
  obtain ⟨hinv1, hinv2⟩ := hinv
  unfold processFile
  cases ha : fileAction env rid te st.records fm.1 with
  | skip =>
    refine ⟨?_, ?_⟩
    · intro g data hg
      dsimp only at hg ⊢
      rcases List.mem_append.mp hg with h1 | h2
      · exact hinv1 g data h1
      · simp at h2
    · intro r hr
      dsimp only at hr ⊢
      rcases hinv2 r hr with h1 | ⟨h2, d, hd⟩
      · exact Or.inl h1
      · exact Or.inr ⟨h2, d, List.mem_append_left _ hd⟩
  | fail recs c m =>
    have hsub : ∀ r, r ∈ recs → r ∈ st.records := by
      rcases fileAction_fail_records env rid te st.records fm.1 recs c m ha with e | e
      · rw [e]; exact fun r h => h
      · rw [e]; exact fun r h => (List.mem_filter.mp h).1
    refine ⟨?_, ?_⟩
    · intro g data hg
      dsimp only at hg ⊢
      rcases List.mem_append.mp hg with h1 | h2
      · have hgfm : ¬g = fm.1 := fun e => hnew (FileOutcome.committed data) (e ▸ h1)
        obtain ⟨hsrc, habs⟩ := hinv1 g data h1
        refine ⟨?_, ?_⟩
        · rcases fileAction_fail_records env rid te st.records fm.1 recs c m ha with e | e
          · rw [e]; exact hsrc
          · rw [e, sourceRecs_filter_other _ _ _ hgfm]; exact hsrc
        · intro r hri hsg hmem
          exact habs r hri hsg (hsub r hmem)
      · simp at h2
    · intro r hr
      dsimp only at hr ⊢
      rcases hinv2 r (hsub r hr) with h1 | ⟨h2, d, hd⟩
      · exact Or.inl h1
      · exact Or.inr ⟨h2, d, List.mem_append_left _ hd⟩
  | commit recs c m data =>
    obtain ⟨hdata, hrecs⟩ :=
      fileAction_commit_records env rid te st.records fm.1 recs c m data ha
    have hdsrc : ∀ r ∈ data, r.source = fm.1 ∧ r.runId = rid := by
      intro r hr
      exact embedBatch_mem env rid fm.1 (chunksOf env fm.1) r (hdata ▸ hr)
    have hpre_sub : ∀ r,
        r ∈ (if te then st.records.filter (fun r => decide (¬r.source = fm.1))
             else st.records) → r ∈ st.records := by
      cases te with
      | false => simp
      | true => simp only [if_true]; exact fun r h => (List.mem_filter.mp h).1
    have hpre_nil : sourceRecs
        (if te then st.records.filter (fun r => decide (¬r.source = fm.1))
         else st.records) fm.1 = [] := by
      cases te with
      | true =>
        simp only [if_true]
        apply sourceRecs_eq_nil
        intro r hr
        have := (List.mem_filter.mp hr).2
        simpa using this
      | false =>
        simp only [Bool.false_eq_true, if_false]
        apply sourceRecs_eq_nil
        intro r hr hsg
        rcases hinv2 r hr with h1 | ⟨_, d, hd⟩
        · exact hini rfl r h1 hsg
        · exact hnew (FileOutcome.committed d) (by rw [← hsg]; exact hd)
    refine ⟨?_, ?_⟩
    · intro g d2 hg
      dsimp only at hg ⊢
      rcases List.mem_append.mp hg with h1 | h2
      · have hgfm : ¬g = fm.1 := fun e => hnew (FileOutcome.committed d2) (e ▸ h1)
        obtain ⟨hsrc, habs⟩ := hinv1 g d2 h1
        refine ⟨?_, ?_⟩
        · rw [hrecs, sourceRecs_append]
          have hnil : sourceRecs data g = [] := by
            apply sourceRecs_eq_nil
            intro r hr e
            exact hgfm (e.symm.trans (hdsrc r hr).1)
          rw [hnil, List.append_nil]
          cases te with
          | false => simpa using hsrc
          | true =>
            simp only [if_true]
            rw [sourceRecs_filter_other _ _ _ hgfm]
            exact hsrc
        · intro r hri hsg hmem
          rw [hrecs] at hmem
          rcases List.mem_append.mp hmem with hp | hd2
          · exact habs r hri hsg (hpre_sub r hp)
          · exact hgfm (hsg.symm.trans (hdsrc r hd2).1)
      · simp only [List.mem_singleton, Prod.mk.injEq, FileOutcome.committed.injEq] at h2
        obtain ⟨hgf, hdd⟩ := h2
        subst hgf
        subst hdd
        refine ⟨?_, ?_⟩
        · rw [hrecs, sourceRecs_append, hpre_nil, List.nil_append]
          exact sourceRecs_eq_self _ _ (fun r hr => (hdsrc r hr).1)
        · intro r hri hsg hmem
          rw [hrecs] at hmem
          rcases List.mem_append.mp hmem with hp | hd2
          · cases hte : te with
            | true =>
              rw [hte] at hp
              simp only [if_true] at hp
              have := (List.mem_filter.mp hp).2
              simp only [decide_eq_true_eq] at this
              exact this hsg
            | false => exact hini hte r hri hsg
          · cases hte : te with
            | true => exact hfr hte r hri (hdsrc r hd2).2
            | false => exact hini hte r hri hsg
    · intro r hr
      dsimp only at hr ⊢
      rw [hrecs] at hr
      rcases List.mem_append.mp hr with hp | hd2
      · rcases hinv2 r (hpre_sub r hp) with h1 | ⟨h2, d, hd⟩
        · exact Or.inl h1
        · exact Or.inr ⟨h2, d, List.mem_append_left _ hd⟩
      · refine Or.inr ⟨(hdsrc r hd2).2, data, ?_⟩
        rw [(hdsrc r hd2).1]
        exact List.mem_append_right _ (by simp)

theorem LoopInv_fold (env : RunEnv) (rid : Nat) (te : Bool) (initRecs : List VecRecord)
    (hfr : te = true → ∀ r ∈ initRecs, ¬r.runId = rid) :
    ∀ (l : List (String × Int)) (st : LoopSt),
      (te = false → ∀ fm ∈ l, ∀ r ∈ initRecs, ¬r.source = fm.1) →
      (∀ fm ∈ l, ∀ o, (fm.1, o) ∉ st.reports) →
      (l.map Prod.fst).Nodup →
      LoopInv rid initRecs st →
      LoopInv rid initRecs (l.foldl (processFile env rid te) st) := by
  intro l
  induction l with
  | nil => intro st _ _ _ hinv; exact hinv
  | cons hd rest ih =>
    intro st hini hnew hnd hinv
    rw [List.map_cons, List.nodup_cons] at hnd
    rw [List.foldl_cons]
    apply ih
    · intro hte fm hm r hr
      exact hini hte fm (List.mem_cons_of_mem _ hm) r hr
    · intro fm hm o hmem
      obtain ⟨o2, ho⟩ := processFile_reports_shape env rid te st hd
      rw [ho] at hmem
      rcases List.mem_append.mp hmem with h1 | h2
      · exact hnew fm (List.mem_cons_of_mem _ hm) o h1
      · simp only [List.mem_singleton, Prod.mk.injEq] at h2
        exact hnd.1 (h2.1 ▸ List.mem_map_of_mem Prod.fst hm)
    · exact hnd.2
    · exact LoopInv_step env rid te initRecs st hd hfr
        (fun hte r hr => hini hte hd (List.mem_cons_self _ _) r hr)
        (fun o hmem => hnew hd (List.mem_cons_self _ _) o hmem) ⟨hinv.1, hinv.2⟩

theorem chunksGo_eq_chunkerSpec (size : Nat) :
    ∀ (l : List String) (chunks : List String) (buf : String),
      chunks ++ chunksGo size l buf =
        (if (l.foldl (chunkerSpecStep size) (chunks, buf)).2 = ""
         then (l.foldl (chunkerSpecStep size) (chunks, buf)).1
         else (l.foldl (chunkerSpecStep size) (chunks, buf)).1
           ++ [jsTrim (l.foldl (chunkerSpecStep size) (chunks, buf)).2]) := by
  intro l
  induction l with
  | nil =>
    intro chunks buf
    by_cases h : buf = "" <;> simp [chunksGo, h]
  | cons s rest ih =>
    intro chunks buf
    rw [List.foldl_cons]
    by_cases hlt : buf.length + s.length < size
    · have hge : ¬buf.length + s.length ≥ size := by omega
      simp only [chunksGo, hlt, if_true, chunkerSpecStep, hge, if_false]
      exact ih chunks _
    · have hge : buf.length + s.length ≥ size := by omega
      by_cases hb : buf = ""
      · simp only [chunksGo, hlt, if_false, hb, if_true, chunkerSpecStep, hge, ite_self]
        exact ih chunks s
      · simp only [chunksGo, hlt, if_false, hb, if_true, chunkerSpecStep, hge]
        rw [show chunks ++ (jsTrim buf :: chunksGo size rest s) =
          (chunks ++ [jsTrim buf]) ++ chunksGo size rest s by simp]
        exact ih (chunks ++ [jsTrim buf]) s

theorem joinStep_length (buf s : String) :
    ((if buf = "" then s else buf ++ " " ++ s)).length =
      (if buf.length = 0 then s.length else buf.length + 1 + s.length) := by
  by_cases hb : buf = ""
  · simp [hb]
  · have : ¬buf.length = 0 := fun e => hb ((string_length_eq_zero buf).mp e)
    simp only [hb, if_false, this]
    rw [String.length_append, String.length_append]
    rfl

theorem chunksGo_length (size : Nat) :
    ∀ (l : List String) (buf : String),
      (chunksGo size l buf).length = gcount size (l.map String.length) buf.length := by
  intro l
  induction l with
  | nil =>
    intro buf
    by_cases hb : buf = ""
    · simp [chunksGo, gcount, hb]
    · have : ¬buf.length = 0 := fun e => hb ((string_length_eq_zero buf).mp e)
      simp [chunksGo, gcount, hb, this]
  | cons s rest ih =>
    intro buf
    simp only [chunksGo, List.map_cons, gcount]
    by_cases hlt : buf.length + s.length < size
    · simp only [hlt, if_true]
      rw [ih, joinStep_length]
    · simp only [hlt, if_false]
      by_cases hb : buf = ""
      · subst hb
        simpa using ih s
      · have hb0 : ¬buf.length = 0 := fun e => hb ((string_length_eq_zero buf).mp e)
        simp only [hb, if_false, hb0]
        rw [List.length_cons, ih]
        omega

theorem gcount_buffer (l : List Nat) :
    ∀ n : Nat,
      (∀ b c : Nat, b ≤ c → gcount n l b ≤ gcount n l c) ∧
      (∀ b c : Nat, c ≤ b → gcount n l b ≤ 1 + gcount n l c) := by
  induction l with
  | nil =>
    intro n
    constructor
    · intro b c h
      simp only [gcount]
      split_ifs <;> omega
    · intro b c h
      simp only [gcount]
      split_ifs <;> omega
  | cons x rest ih =>
    intro n
    obtain ⟨ih1, ih2⟩ := ih n
    constructor
    · intro b c hbc
      simp only [gcount]
      by_cases h1 : b + x < n <;> by_cases h2 : c + x < n
      · simp only [h1, if_true, h2]
        apply ih1
        split_ifs <;> omega
      · simp only [h1, if_true, h2, if_false]
        by_cases hc : c = 0
        · omega
        · simp only [hc, if_false]
          apply ih2
          split_ifs <;> omega
      · omega
      · simp only [h1, if_false, h2]
        have hx := ih2 x x le_rfl
        split_ifs <;> omega
    · intro b c hcb
      simp only [gcount]
      by_cases h1 : b + x < n <;> by_cases h2 : c + x < n
      · simp only [h1, if_true, h2]
        apply ih2
        split_ifs <;> omega
      · omega
      · simp only [h1, if_false, h2, if_true]
        by_cases hc : c = 0
        · simp only [hc, if_true]
          have hmono := ih1 x x le_rfl
          split_ifs <;> omega
        · simp only [hc, if_false]
          have hmono := ih1 x (c + 1 + x) (by omega)
          split_ifs <;> omega
      · simp only [h1, if_false, h2]
        split_ifs <;> omega

theorem gcount_size_mono (l : List Nat) :
    ∀ (nBig nSmall b : Nat), nSmall ≤ nBig →
      gcount nBig l b ≤ gcount nSmall l b := by
  induction l with
  | nil => intro nBig nSmall b _; simp [gcount]
  | cons x rest ih =>
    intro nBig nSmall b h
    simp only [gcount]
    by_cases h2 : b + x < nSmall
    · have h1 : b + x < nBig := by omega
      simp only [h1, if_true, h2]
      exact ih _ _ _ h
    · by_cases h1 : b + x < nBig
      · simp only [h1, if_true, h2, if_false]
        by_cases hb : b = 0
        · simp only [hb, if_true]
          exact ih _ _ _ h
        · simp only [hb, if_false]
          have hA : gcount nBig rest (b + 1 + x) ≤ gcount nSmall rest (b + 1 + x) :=
            ih _ _ _ h
          have hB : gcount nSmall rest (b + 1 + x) ≤ 1 + gcount nSmall rest x :=
            (gcount_buffer rest nSmall).2 _ _ (by omega)
          omega
      · simp only [h1, if_false, h2]
        have hx : gcount nBig rest x ≤ gcount nSmall rest x := ih _ _ _ h
        split_ifs <;> omega

theorem execute_upToDate (env : RunEnv) (rid : Nat) (cache0 : Cache)
    (index0 : IndexState) (h : workOf env cache0 = []) :
    execute env rid cache0 index0 =
      { status := RunStatus.upToDate, cache := cache0, index := index0
        embedCalls := 0, indexMutations := 0, openedIndex := false, reports := [] } := by
  unfold execute
  rw [if_pos h]

theorem execute_te_true (env : RunEnv) (rid : Nat) (cache0 : Cache)
    (index0 : IndexState) (hw : ¬workOf env cache0 = [])
    (hte : index0.tableExists = true) :
    execute env rid cache0 index0 =
      (if env.writeFails then
        writeFailResult cache0 (loopStateOf env rid true cache0 index0.records 0 0)
       else
        finishResult (workOf env cache0)
          (loopStateOf env rid true cache0 index0.records 0 0)) := by
  unfold execute
  rw [if_neg hw, hte]
  rfl

theorem execute_te_false_some (env : RunEnv) (rid : Nat) (cache0 : Cache)
    (index0 : IndexState) (v : List JsVal) (hw : ¬workOf env cache0 = [])
    (hte : index0.tableExists = false) (hv : env.embed "sample" = some v) :
    execute env rid cache0 index0 =
      (if env.writeFails then
        writeFailResult cache0 (loopStateOf env rid false cache0 [sampleRecord v rid] 1 1)
       else
        finishResult (workOf env cache0)
          (loopStateOf env rid false cache0 [sampleRecord v rid] 1 1)) := by
  unfold execute
  rw [if_neg hw, hte, hv]
  rfl

theorem execute_te_false_none (env : RunEnv) (rid : Nat) (cache0 : Cache)
    (index0 : IndexState) (hw : ¬workOf env cache0 = [])
    (hte : index0.tableExists = false) (hv : env.embed "sample" = none) :
    execute env rid cache0 index0 =
      { status := RunStatus.fatal, cache := cache0, index := index0, embedCalls := 1
        indexMutations := 0, openedIndex := true, reports := [] } := by
  unfold execute
  rw [if_neg hw, hte, hv]
  rfl

/-- C4, counterexample: the claim says an empty embedding array is treated
as a failed attempt, but `[].every(Number.isFinite)` is true, so
`getEmbedding` returns the empty vector from the very first response. -/
theorem c4_counterexample :
    getEmbedding (fun _ => OllamaResult.ok (some [])) 3 = some [] := rfl

/-- C4 (amended): `embed` returns a vector exactly when some attempt's
response carries an array all of whose elements are finite numbers (an
empty array included); a throw, a non-array, or a NaN/Infinity element is
a failed attempt that falls through to the next retry, and exhausting the
budget yields the `none` sentinel rather than an exception. -/
theorem c4_embedding_validation (svc : Nat → OllamaResult) (r : Nat) :
    (∀ xs, getEmbedding svc r = some xs → xs.all JsVal.isFinite = true) ∧
    ((∀ i, i < r → validResp (svc i) = false) → getEmbedding svc r = none) ∧
    (∀ i xs, i < r → (∀ j, j < i → validResp (svc j) = false) →
      svc i = OllamaResult.ok (some xs) → xs.all JsVal.isFinite = true →
      getEmbedding svc r = some xs) := by
  refine ⟨?_, ?_, ?_⟩
  · intro xs h
    exact getEmbeddingGo_all_finite svc r 0 xs h
  · intro h
    exact getEmbeddingGo_exhausted svc r 0 (fun j h1 h2 => h j (by omega))
  · intro i xs hi hprev hcur hfin
    exact getEmbeddingGo_first_valid svc r i 0 xs hi
      (fun j hj => by simpa using hprev j hj) (by simpa using hcur) hfin

/-- Witness for C4's amended theorem at a concrete service: the first
response carries a NaN, so the second attempt's finite vector is the one
returned. -/
theorem c4_witness :
    getEmbedding
      (fun i => if i = 0 then OllamaResult.ok (some [JsVal.nan])
                else OllamaResult.ok (some [JsVal.num 2])) 3 = some [JsVal.num 2] :=
  (c4_embedding_validation
    (fun i => if i = 0 then OllamaResult.ok (some [JsVal.nan])
              else OllamaResult.ok (some [JsVal.num 2])) 3).2.2 1 [JsVal.num 2]
    (by decide) (by decide) (by decide) (by decide)

/-- C5: `getEmbedding`'s default budget is 3 attempts and only the first 3
responses matter; a service failing twice then succeeding yields that
vector; a service failing on every attempt yields the `none` sentinel; the
orchestrator still commits such a file, dropping exactly the chunks whose
embedding failed while keeping their siblings in order. -/
theorem c5_retry_bound_and_chunk_drop :
    (∀ svc svcB : Nat → OllamaResult, (∀ i, i < 3 → svc i = svcB i) →
      getEmbedding svc 3 = getEmbedding svcB 3) ∧
    (∀ (svc : Nat → OllamaResult) (xs : List JsVal),
      svc 0 = OllamaResult.err → svc 1 = OllamaResult.err →
      svc 2 = OllamaResult.ok (some xs) → xs.all JsVal.isFinite = true →
      getEmbedding svc 3 = some xs) ∧
    (∀ svc : Nat → OllamaResult, (∀ i, i < 3 → svc i = OllamaResult.err) →
      getEmbedding svc 3 = none) ∧
    (∀ (env : RunEnv) (rid : Nat) (te : Bool) (st : LoopSt) (f : String) (m : Int),
      goodFile env f →
      (processFile env rid te st (f, m)).reports =
        st.reports ++ [(f, FileOutcome.committed (committedData env rid f))]) ∧
    (∀ (env : RunEnv) (rid : Nat) (f : String) (as bs : List String) (c : String),
      env.embed c = none →
      embedBatch env rid f (as ++ c :: bs) =
        embedBatch env rid f as ++ embedBatch env rid f bs) := by
  refine ⟨?_, ?_, ?_, ?_, ?_⟩
  · intro svc svcB h
    exact getEmbeddingGo_congr svc svcB 3 0 (fun j h1 h2 => h j (by omega))
  · intro svc xs h0 h1 h2 hfin
    apply getEmbeddingGo_first_valid svc 3 2 0 xs (by omega) ?_ (by simpa using h2) hfin
    intro j hj
    interval_cases j <;> simp [validResp, h0, h1]
  · intro svc h
    exact getEmbeddingGo_exhausted svc 3 0 (fun j h1 h2 => by
      rw [h j (by omega)]; rfl)
  · intro env rid te st f m hg
    rw [processFile_good env rid te st f m hg]
  · intro env rid f as bs c h
    simp [embedBatch, List.filterMap_append, List.filterMap_cons, h]

/-- Witness for C5 at concrete inputs: a service failing twice then
succeeding, a service failing all three times, and a one-file commit. -/
theorem c5_witness :
    getEmbedding
      (fun i => if i ≤ 1 then OllamaResult.err else OllamaResult.ok (some [JsVal.num 5]))
      3 = some [JsVal.num 5] ∧
    getEmbedding (fun _ => OllamaResult.err) 3 = none ∧
    (processFile wEnvA 1 false
      { cache := [], records := [], embedCalls := 0, mutations := 0, reports := [] }
      ("a", 5)).reports = [("a", FileOutcome.committed (committedData wEnvA 1 "a"))] := by
  refine ⟨?_, ?_, ?_⟩
  · exact c5_retry_bound_and_chunk_drop.2.1 _ [JsVal.num 5] rfl rfl rfl (by decide)
  · exact c5_retry_bound_and_chunk_drop.2.2.1 _ (fun i _ => rfl)
  · have := c5_retry_bound_and_chunk_drop.2.2.2.1 wEnvA 1 false
      { cache := [], records := [], embedCalls := 0, mutations := 0, reports := [] }
      "a" 5 (by decide)
    simpa using this

/-- C6: the source chunker equals the reference greedy definition written
from the specification's words (flush when the buffer length plus the
incoming sentence length reaches or exceeds the target, single-space
joins, trimmed flushes, final flush); the worked example with target 15
produces exactly the three sentences as chunks, and an input with no
sentences yields no chunks. -/
theorem c6_chunker_matches_reference :
    (∀ (sentences : List String) (targetSize : Nat),
      semanticChunks sentences targetSize = chunkerSpec sentences targetSize) ∧
    semanticChunks ["Sentence one.", "Sentence two.", "Sentence three."] 15 =
      ["Sentence one.", "Sentence two.", "Sentence three."] ∧
    (∀ targetSize : Nat, semanticChunks [] targetSize = []) := by
  refine ⟨?_, ?_, ?_⟩
  · intro ss n
    have h := chunksGo_eq_chunkerSpec n ss [] ""
    simpa [semanticChunks, chunkerSpec] using h
  · decide
  · intro n
    rfl

/-- C7: chunking is a pure function of the sentence list and the target
size (calling it twice yields the same sequence), and shrinking the target
size never decreases the number of chunks. -/
theorem c7_chunking_deterministic_and_monotone (sentences : List String)
    (n1 n2 : Nat) :
    semanticChunks sentences n1 = semanticChunks sentences n1 ∧
    (n2 ≤ n1 →
      (semanticChunks sentences n1).length ≤ (semanticChunks sentences n2).length) := by
  refine ⟨rfl, fun h => ?_⟩
  unfold semanticChunks
  rw [chunksGo_length, chunksGo_length]
  exact gcount_size_mono _ _ _ _ h

/-- Witness for C7 at a concrete sentence list and sizes 100 and 3. -/
theorem c7_witness :
    3 ≤ 100 ∧
    (semanticChunks ["ab", "cd", "ef"] 100).length ≤
      (semanticChunks ["ab", "cd", "ef"] 3).length :=
  ⟨by decide, (c7_chunking_deterministic_and_monotone ["ab", "cd", "ef"] 100 3).2
    (by decide)⟩

theorem workEff_eq_work (env : RunEnv) (cache0 : Cache)
    (ha : env.abortAfter = none) : workEffOf env cache0 = workOf env cache0 := by
  unfold workEffOf
  rw [ha]

theorem mem_files_of_mem_work (env : RunEnv) (cache0 : Cache) (fm : String × Int)
    (h : fm ∈ workOf env cache0) : fm ∈ env.files :=
  (List.mem_filter.mp h).1

theorem mem_work_of_mem_workEff (env : RunEnv) (cache0 : Cache) (fm : String × Int)
    (h : fm ∈ workEffOf env cache0) : fm ∈ workOf env cache0 := by
  unfold workEffOf at h
  cases habort : env.abortAfter with
  | none => rw [habort] at h; exact h
  | some k => rw [habort] at h; exact List.take_subset k _ h

theorem work_sublist_files (env : RunEnv) (cache0 : Cache) :
    (workOf env cache0).Sublist env.files :=
  List.filter_sublist env.files

theorem workEff_sublist_files (env : RunEnv) (cache0 : Cache) :
    (workEffOf env cache0).Sublist env.files := by
  unfold workEffOf
  cases env.abortAfter with
  | none => exact work_sublist_files env cache0
  | some k => exact (List.take_sublist k _).trans (work_sublist_files env cache0)

theorem workEff_paths_nodup (env : RunEnv) (cache0 : Cache)
    (hnd : (env.files.map Prod.fst).Nodup) :
    ((workEffOf env cache0).map Prod.fst).Nodup :=
  hnd.sublist ((workEff_sublist_files env cache0).map Prod.fst)

theorem eq_of_mem_nodup_fst :
    ∀ (l : List (String × Int)) (a b : String × Int),
      (l.map Prod.fst).Nodup → a ∈ l → b ∈ l → a.1 = b.1 → a = b := by
  intro l
  induction l with
  | nil => intro a b _ ha; simp at ha
  | cons hd tl ih =>
    intro a b hnd ha hb heq
    rw [List.map_cons, List.nodup_cons] at hnd
    rcases List.mem_cons.mp ha with rfl | ha2
    · rcases List.mem_cons.mp hb with rfl | hb2
      · rfl
      · exact absurd (heq ▸ List.mem_map_of_mem Prod.fst hb2) hnd.1
    · rcases List.mem_cons.mp hb with rfl | hb2
      · exact absurd (heq ▸ List.mem_map_of_mem Prod.fst ha2) hnd.1
      · exact ih a b hnd.2 ha2 hb2 heq

theorem not_mem_work_paths (env : RunEnv) (cache0 : Cache) (fm : String × Int)
    (hnd : (env.files.map Prod.fst).Nodup) (hf : fm ∈ env.files)
    (hnw : fm ∉ workOf env cache0) : fm.1 ∉ (workEffOf env cache0).map Prod.fst := by
  intro hmem
  obtain ⟨gm, hgm, hgeq⟩ := List.mem_map.mp hmem
  have hgw := mem_work_of_mem_workEff env cache0 gm hgm
  have hgf := mem_files_of_mem_work env cache0 gm hgw
  have : gm = fm := eq_of_mem_nodup_fst env.files gm fm hnd hgf hf hgeq
  exact hnw (this ▸ hgw)

theorem mem_staleFilter_iff (cache : Cache) (files : List (String × Int))
    (fm : String × Int) :
    fm ∈ staleFilter cache files ↔ fm ∈ files ∧
      (cacheLookup cache fm.1 = none ∨
        ∃ e, cacheLookup cache fm.1 = some e ∧ ¬e.mtime = fm.2) := by
  unfold staleFilter
  rw [List.mem_filter]
  cases hl : cacheLookup cache fm.1 with
  | none => simp [hl]
  | some e => simp [hl]

theorem notStale_lookup (cache : Cache) (files : List (String × Int))
    (fm : String × Int) (hf : fm ∈ files) (hnw : fm ∉ staleFilter cache files) :
    ∃ e, cacheLookup cache fm.1 = some e ∧ e.mtime = fm.2 := by
  rw [mem_staleFilter_iff] at hnw
  cases hl : cacheLookup cache fm.1 with
  | none => exact absurd ⟨hf, Or.inl hl⟩ hnw
  | some e =>
    refine ⟨e, rfl, ?_⟩
    by_contra hne
    exact hnw ⟨hf, Or.inr ⟨e, hl, hne⟩⟩

theorem SameRun_of_LoopInv (rid : Nat) (initRecs : List VecRecord) (st : LoopSt)
    (hIR : SameRunPerSource initRecs) (hinv : LoopInv rid initRecs st) :
    SameRunPerSource st.records := by
  intro r hr s hs hsrc
  rcases hinv.2 r hr with hrI | ⟨hrid, d, hrep⟩
  · rcases hinv.2 s hs with hsI | ⟨hsid, d2, hrep2⟩
    · exact hIR r hrI s hsI hsrc
    · exact absurd hr ((hinv.1 s.source d2 hrep2).2 r hrI hsrc)
  · rcases hinv.2 s hs with hsI | ⟨hsid, d2, hrep2⟩
    · exact absurd hs ((hinv.1 r.source d hrep).2 s hsI hsrc.symm)
    · rw [hrid, hsid]

/-- C3, evaluated at the failing input: the only escaping applied to the
interpolated path doubles backslashes, so a path containing a quote
character produces a filter whose string literal terminates early and
which therefore fails to parse (the claim's required quote escaping is
absent). -/
theorem c3_quote_path_breaks_filter :
    parseDeleteFilter
        (deleteFilter (String.mk ['i', 't', '\'', 's', '.', 't', 'x', 't'])) = none ∧
    quoteChar ∈ (String.mk ['i', 't', '\'', 's', '.', 't', 'x', 't']).data := by
  decide

/-- C10: an empty file decodes to the empty string, so the
replacement-character ratio is the JavaScript division `0 / 0 = NaN`,
`NaN < 0.1` is false, and `canLoadAsText` answers false; the orchestrator
then records a skip report and leaves the state (cache included)
untouched, and a file with no cache entry is in the work set of every
run that walks it. -/
theorem c10_empty_file_skipped_uncached :
    (∀ decodeUtf8 : List Nat → String, decodeUtf8 [] = "" →
      jsDivNat (countReplacement (decodeUtf8 [])) (decodeUtf8 []).length = JsVal.nan ∧
      jsLt JsVal.nan (1 / 10) = false ∧
      canLoadAsText decodeUtf8 [] = false) ∧
    (∀ (env : RunEnv) (rid : Nat) (te : Bool) (st : LoopSt) (fm : String × Int),
      env.loadable fm.1 = false →
      processFile env rid te st fm =
        { st with reports := st.reports ++ [(fm.1, FileOutcome.skippedNonText)] }) ∧
    (∀ (cache : Cache) (files : List (String × Int)) (fm : String × Int),
      fm ∈ files → cacheLookup cache fm.1 = none → fm ∈ staleFilter cache files) := by
  refine ⟨?_, ?_, ?_⟩
  · intro dec h
    refine ⟨by rw [h]; rfl, rfl, ?_⟩
    simp only [canLoadAsText, h]
    rfl
  · intro env rid te st fm h
    exact processFile_skip env rid te st fm h
  · intro cache files fm hmem hnone
    rw [mem_staleFilter_iff]
    exact ⟨hmem, Or.inl hnone⟩

/-- Witness for C10 at the concrete ten-file environment: the `bin` file is
rejected by the heuristic and its processing only appends a skip report. -/
theorem c10_witness :
    canLoadAsText (fun _ => "") [] = false ∧
    (processFile wEnvTen 1 true
        { cache := [], records := [], embedCalls := 0, mutations := 0, reports := [] }
        ("bin", 1)).reports = [("bin", FileOutcome.skippedNonText)] ∧
    ("bin", (1 : Int)) ∈ staleFilter [] [("bin", 1)] := by
  refine ⟨?_, ?_, ?_⟩
  · exact (c10_empty_file_skipped_uncached.1 (fun _ => "") rfl).2.2
  · rw [c10_empty_file_skipped_uncached.2.1 wEnvTen 1 true
      { cache := [], records := [], embedCalls := 0, mutations := 0, reports := [] }
      ("bin", 1) (by decide)]
    rfl
  · exact c10_empty_file_skipped_uncached.2.2 [] [("bin", 1)] ("bin", 1) (by decide) rfl

/-- C9: when the table is missing, a run that gets past the empty-work
check creates it holding the bootstrap record with text and source
`"sample"`, and that record survives the whole run; when the table already
exists, every record with source `"sample"` survives any run, because the
delete step only ever removes the exact walked path interpolated into its
filter and walked paths are never the string `"sample"`.  Surviving in the
table makes the record eligible for every similarity search, which scans
this table. -/
theorem c9_sample_record_persists (env : RunEnv) (rid : Nat) (cache0 : Cache)
    (index0 : IndexState)
    (hpaths : ∀ fm ∈ env.files, ¬fm.1 = "sample") :
    (index0.tableExists = false →
      ∀ v, env.embed "sample" = some v → ¬workOf env cache0 = [] →
        sampleRecord v rid ∈ (execute env rid cache0 index0).index.records) ∧
    (index0.tableExists = true →
      ∀ r ∈ index0.records, r.source = "sample" →
        r ∈ (execute env rid cache0 index0).index.records) := by
  have hkeepAll : ∀ (te : Bool) (recs0 : List VecRecord) (calls0 muts0 : Nat)
      (r : VecRecord), r.source = "sample" → r ∈ recs0 →
      r ∈ (loopStateOf env rid te cache0 recs0 calls0 muts0).records := by
    intro te recs0 calls0 muts0 r hsrc hr
    unfold loopStateOf
    apply foldPF_records_keep
    · intro fm hm e
      have hf := mem_files_of_mem_work env cache0 fm (mem_work_of_mem_workEff env cache0 fm hm)
      exact hpaths fm hf (e.symm.trans hsrc)
    · exact hr
  constructor
  · intro hte v hv hw
    rw [execute_te_false_some env rid cache0 index0 v hw hte hv]
    have hk := hkeepAll false [sampleRecord v rid] 1 1 (sampleRecord v rid) rfl
      (List.mem_singleton.mpr rfl)
    by_cases hwf : env.writeFails = true
    · simp only [hwf, if_true, writeFailResult]
      exact hk
    · simp only [hwf, Bool.false_eq_true, if_false, finishResult]
      exact hk
  · intro hte r hr hsrc
    by_cases hw : workOf env cache0 = []
    · rw [execute_upToDate env rid cache0 index0 hw]
      exact hr
    · rw [execute_te_true env rid cache0 index0 hw hte]
      have hk := hkeepAll true index0.records 0 0 r hsrc hr
      by_cases hwf : env.writeFails = true
      · simp only [hwf, if_true, writeFailResult]
        exact hk
      · simp only [hwf, Bool.false_eq_true, if_false, finishResult]
        exact hk

/-- Witness for C9: on a fresh store the one-file run leaves the sample
record in the created table. -/
theorem c9_witness :
    sampleRecord [JsVal.num 1] 1 ∈
      (execute wEnvA 1 [] { tableExists := false, records := [] }).index.records :=
  (c9_sample_record_persists wEnvA 1 [] { tableExists := false, records := [] }
    (by decide)).1 rfl [JsVal.num 1] rfl (by decide)

/-- C1: a file is stale exactly when it has no cache entry or a different
stored mtime; and after a first run in which every work-set file was
processed and committed, a second run over the same files and mtimes
computes an empty work set and takes the early return: no embedding calls,
no index mutations, the store never opened, cache and index unchanged. -/
theorem c1_second_run_idempotent (env : RunEnv) (rid1 rid2 : Nat) (cache0 : Cache)
    (index0 : IndexState)
    (hnd : (env.files.map Prod.fst).Nodup)
    (ha : env.abortAfter = none)
    (hwf : env.writeFails = false)
    (hgood : ∀ fm ∈ workOf env cache0, goodFile env fm.1)
    (hnf : index0.tableExists = false → ∃ v, env.embed "sample" = some v) :
    (∀ (cache : Cache) (files : List (String × Int)) (fm : String × Int),
      fm ∈ staleFilter cache files ↔ fm ∈ files ∧
        (cacheLookup cache fm.1 = none ∨
          ∃ e, cacheLookup cache fm.1 = some e ∧ ¬e.mtime = fm.2)) ∧
    workOf env (execute env rid1 cache0 index0).cache = [] ∧
    execute env rid2 (execute env rid1 cache0 index0).cache
        (execute env rid1 cache0 index0).index =
      { status := RunStatus.upToDate
        cache := (execute env rid1 cache0 index0).cache
        index := (execute env rid1 cache0 index0).index
        embedCalls := 0, indexMutations := 0, openedIndex := false
        reports := [] } := by
  have hcov : ∀ fm ∈ env.files,
      ∃ e, cacheLookup (execute env rid1 cache0 index0).cache fm.1 = some e ∧
        e.mtime = fm.2 := by
    intro fm hf
    by_cases hw : workOf env cache0 = []
    · rw [execute_upToDate env rid1 cache0 index0 hw]
      refine notStale_lookup cache0 env.files fm hf ?_
      intro hmem
      rw [show staleFilter cache0 env.files = workOf env cache0 from rfl, hw] at hmem
      exact absurd hmem (List.not_mem_nil fm)
    · have hcommon : ∀ (te : Bool) (recs0 : List VecRecord) (calls0 muts0 : Nat),
          ∃ e, cacheLookup
              (loopStateOf env rid1 te cache0 recs0 calls0 muts0).cache fm.1 =
            some e ∧ e.mtime = fm.2 := by
        intro te recs0 calls0 muts0
        by_cases hmw : fm ∈ workOf env cache0
        · refine ⟨{ mtime := fm.2, fileId := env.hashFn fm.1 }, ?_, rfl⟩
          unfold loopStateOf
          apply foldPF_commit_cache env rid1 te _ _
            (workEff_paths_nodup env cache0 hnd) fm
          · rw [workEff_eq_work env cache0 ha]
            exact hmw
          · exact hgood fm hmw
        · obtain ⟨e, he, hme⟩ := notStale_lookup cache0 env.files fm hf hmw
          refine ⟨e, ?_, hme⟩
          unfold loopStateOf
          rw [foldPF_cache_frame env rid1 te _ _ fm.1
            (not_mem_work_paths env cache0 fm hnd hf hmw)]
          exact he
      by_cases hte : index0.tableExists = true
      · rw [execute_te_true env rid1 cache0 index0 hw hte, hwf]
        simp only [Bool.false_eq_true, if_false, finishResult]
        exact hcommon true index0.records 0 0
      · obtain ⟨v, hv⟩ := hnf (by simpa using hte)
        rw [execute_te_false_some env rid1 cache0 index0 v hw (by simpa using hte) hv,
          hwf]
        simp only [Bool.false_eq_true, if_false, finishResult]
        exact hcommon false [sampleRecord v rid1] 1 1
  have hempty2 : workOf env (execute env rid1 cache0 index0).cache = [] := by
    unfold workOf staleFilter
    rw [List.filter_eq_nil_iff]
    intro fm hf
    obtain ⟨e, he, hme⟩ := hcov fm hf
    simp [he, hme]
  exact ⟨fun cache files fm => mem_staleFilter_iff cache files fm, hempty2,
    execute_upToDate env rid2 _ _ hempty2⟩

/-- Witness for C1 at the one-file environment: after the first run the
work set of the second run is empty. -/
theorem c1_witness :
    workOf wEnvA (execute wEnvA 1 [] { tableExists := true, records := [] }).cache =
      [] :=
  (c1_second_run_idempotent wEnvA 1 2 [] { tableExists := true, records := [] }
    (by decide) rfl rfl (by decide) (fun h => by simp at h)).2.1

/-- C2: across any run (aborted, write-failed or not), every record of a
source ever carries one run's tag (no source mixes records of two
different runs), and every file the run reports committed has in the final
table exactly the batch this run built for it, with every pre-run record
of that source gone. -/
theorem c2_replace_on_change (env : RunEnv) (rid : Nat) (cache0 : Cache)
    (index0 : IndexState)
    (hnd : (env.files.map Prod.fst).Nodup)
    (hfresh : ∀ r ∈ index0.records, ¬r.runId = rid)
    (hempty : index0.tableExists = false → index0.records = [])
    (hinv : SameRunPerSource index0.records)
    (hsample : ∀ fm ∈ env.files, ¬fm.1 = "sample") :
    SameRunPerSource (execute env rid cache0 index0).index.records ∧
    (∀ f data,
      (f, FileOutcome.committed data) ∈ (execute env rid cache0 index0).reports →
      sourceRecs (execute env rid cache0 index0).index.records f = data ∧
      ∀ r ∈ index0.records, r.source = f →
        r ∉ (execute env rid cache0 index0).index.records) := by
  by_cases hw : workOf env cache0 = []
  · rw [execute_upToDate env rid cache0 index0 hw]
    exact ⟨hinv, fun f data hmem => absurd hmem (List.not_mem_nil _)⟩
  · have hndw := workEff_paths_nodup env cache0 hnd
    have hcore : ∀ (te : Bool) (initRecs : List VecRecord) (calls0 muts0 : Nat),
        (te = true → ∀ r ∈ initRecs, ¬r.runId = rid) →
        (te = false → ∀ fm ∈ workEffOf env cache0, ∀ r ∈ initRecs,
          ¬r.source = fm.1) →
        LoopInv rid initRecs (loopStateOf env rid te cache0 initRecs calls0 muts0) := by
      intro te initRecs calls0 muts0 hfr hini
      unfold loopStateOf
      apply LoopInv_fold env rid te initRecs hfr _ _ hini
      · intro fm _ o hmem
        exact absurd hmem (List.not_mem_nil _)
      · exact hndw
      · exact ⟨fun f data hmem => absurd hmem (List.not_mem_nil _),
          fun r hr => Or.inl hr⟩
    by_cases hte : index0.tableExists = true
    · rw [execute_te_true env rid cache0 index0 hw hte]
      have hIL := hcore true index0.records 0 0 (fun _ => hfresh)
        (fun hcontra => by simp at hcontra)
      have hgoal : ∀ res : RunResult,
          res.index.records =
            (loopStateOf env rid true cache0 index0.records 0 0).records →
          res.reports = (loopStateOf env rid true cache0 index0.records 0 0).reports →
          SameRunPerSource res.index.records ∧
          (∀ f data, (f, FileOutcome.committed data) ∈ res.reports →
            sourceRecs res.index.records f = data ∧
            ∀ r ∈ index0.records, r.source = f → r ∉ res.index.records) := by
        intro res hrec hrep
        rw [hrec, hrep]
        exact ⟨SameRun_of_LoopInv rid index0.records _ hinv hIL,
          fun f data hmem => (hIL.1 f data hmem)⟩
      by_cases hwf : env.writeFails = true
      · simp only [hwf, if_true]
        exact hgoal _ rfl rfl
      · simp only [hwf, Bool.false_eq_true, if_false]
        exact hgoal _ rfl rfl
    · cases hv : env.embed "sample" with
      | none =>
        rw [execute_te_false_none env rid cache0 index0 hw (by simpa using hte) hv]
        exact ⟨hinv, fun f data hmem => absurd hmem (List.not_mem_nil _)⟩
      | some v =>
        rw [execute_te_false_some env rid cache0 index0 v hw (by simpa using hte) hv]
        have hrec0 : index0.records = [] := hempty (by simpa using hte)
        have hsingle : SameRunPerSource [sampleRecord v rid] := by
          intro r hr s hs _
          rw [List.mem_singleton.mp hr, List.mem_singleton.mp hs]
        have hIL := hcore false [sampleRecord v rid] 1 1
          (fun hcontra => by simp at hcontra)
          (fun _ fm hm r hr => by
            rw [List.mem_singleton.mp hr]
            intro e
            exact hsample fm
              (mem_files_of_mem_work env cache0 fm
                (mem_work_of_mem_workEff env cache0 fm hm)) e.symm)
        have hgoal : ∀ res : RunResult,
            res.index.records =
              (loopStateOf env rid false cache0 [sampleRecord v rid] 1 1).records →
            res.reports =
              (loopStateOf env rid false cache0 [sampleRecord v rid] 1 1).reports →
            SameRunPerSource res.index.records ∧
            (∀ f data, (f, FileOutcome.committed data) ∈ res.reports →
              sourceRecs res.index.records f = data ∧
              ∀ r ∈ index0.records, r.source = f → r ∉ res.index.records) := by
          intro res hrec hrep
          rw [hrec, hrep]
          refine ⟨SameRun_of_LoopInv rid [sampleRecord v rid] _ hsingle hIL, ?_⟩
          intro f data hmem
          refine ⟨(hIL.1 f data hmem).1, ?_⟩
          intro r hr
          rw [hrec0] at hr
          exact absurd hr (List.not_mem_nil r)
        by_cases hwf : env.writeFails = true
        · simp only [hwf, if_true]
          exact hgoal _ rfl rfl
        · simp only [hwf, Bool.false_eq_true, if_false]
          exact hgoal _ rfl rfl

/-- Witness for C2 at the one-file environment against a table holding one
stale record for the same source from an earlier run. -/
theorem c2_witness :
    SameRunPerSource
      (execute wEnvA 1 []
        { tableExists := true
          records := [{ vector := [JsVal.num 3], text := "old", source := "a",
                        runId := 0 }] }).index.records :=
  (c2_replace_on_change wEnvA 1 []
    { tableExists := true
      records := [{ vector := [JsVal.num 3], text := "old", source := "a",
                    runId := 0 }] }
    (by decide) (by decide) (by decide) (by decide) (by decide)).1

theorem delResult_none_of (env : RunEnv) (te : Bool) (records : List VecRecord)
    (f : String) (hte : te = true)
    (h : env.deleteFails f = true ∨ quoteChar ∈ f.data) :
    delResult env te records f = none := by
  unfold delResult
  rw [hte]
  simp only [if_true]
  rcases h with hd | hq
  · simp [hd]
  · by_cases hd : env.deleteFails f
    · simp [hd]
    · simp [hd, parseDeleteFilter_deleteFilter, hq]

theorem fileAction_deleteFail (env : RunEnv) (rid : Nat) (te : Bool)
    (records : List VecRecord) (f : String)
    (h1 : env.loadable f = true) (h2 : env.readFails f = false) (hte : te = true)
    (hdel : env.deleteFails f = true ∨ quoteChar ∈ f.data) :
    fileAction env rid te records f = FileAction.fail records 0 0 := by
  unfold fileAction
  simp only [h1, if_true, h2, Bool.false_eq_true, if_false,
    delResult_none_of env te records f hte hdel]

theorem fileAction_addFail (env : RunEnv) (rid : Nat) (te : Bool)
    (records : List VecRecord) (f : String)
    (h1 : env.loadable f = true) (h2 : env.readFails f = false)
    (hdel : te = false ∨ (env.deleteFails f = false ∧ quoteChar ∉ f.data))
    (h5 : env.addFails f = true) (h6 : ¬embedBatch env rid f (chunksOf env f) = []) :
    ∃ recs c m, fileAction env rid te records f = FileAction.fail recs c m := by
  have hdelres : ∃ recs1 dmut, delResult env te records f = some (recs1, dmut) := by
    rcases hdel with hf | ⟨hd, hq⟩
    · refine ⟨records, 0, ?_⟩
      unfold delResult
      rw [hf]
      rfl
    · exact ⟨_, _, delResult_of_good env te records f hd hq⟩
  obtain ⟨recs1, dmut, hd⟩ := hdelres
  refine ⟨recs1, (chunksOf env f).length, dmut, ?_⟩
  unfold fileAction
  simp only [h1, if_true, h2, Bool.false_eq_true, if_false, hd, h6, h5]

theorem processFile_deleteFail (env : RunEnv) (rid : Nat) (te : Bool) (st : LoopSt)
    (fm : String × Int)
    (h1 : env.loadable fm.1 = true) (h2 : env.readFails fm.1 = false)
    (hte : te = true)
    (hdel : env.deleteFails fm.1 = true ∨ quoteChar ∈ fm.1.data) :
    (processFile env rid te st fm).cache = st.cache ∧
    (processFile env rid te st fm).reports =
      st.reports ++ [(fm.1, FileOutcome.failed)] := by
  unfold processFile
  rw [fileAction_deleteFail env rid te st.records fm.1 h1 h2 hte hdel]
  exact ⟨rfl, rfl⟩

theorem processFile_addFail (env : RunEnv) (rid : Nat) (te : Bool) (st : LoopSt)
    (fm : String × Int)
    (h1 : env.loadable fm.1 = true) (h2 : env.readFails fm.1 = false)
    (hdel : te = false ∨ (env.deleteFails fm.1 = false ∧ quoteChar ∉ fm.1.data))
    (h5 : env.addFails fm.1 = true) (h6 : ¬committedData env rid fm.1 = []) :
    (processFile env rid te st fm).cache = st.cache ∧
    (processFile env rid te st fm).reports =
      st.reports ++ [(fm.1, FileOutcome.failed)] := by
  obtain ⟨recs, c, m, hfa⟩ :=
    fileAction_addFail env rid te st.records fm.1 h1 h2 hdel h5 h6
  unfold processFile
  rw [hfa]
  exact ⟨rfl, rfl⟩

theorem foldPF_failed_at (env : RunEnv) (rid : Nat) (te : Bool) :
    ∀ (l : List (String × Int)) (st : LoopSt) (fm : String × Int),
      (l.map Prod.fst).Nodup → fm ∈ l →
      (∀ st2 : LoopSt, (processFile env rid te st2 fm).cache = st2.cache ∧
        (processFile env rid te st2 fm).reports =
          st2.reports ++ [(fm.1, FileOutcome.failed)]) →
      (fm.1, FileOutcome.failed) ∈ (l.foldl (processFile env rid te) st).reports ∧
      cacheLookup (l.foldl (processFile env rid te) st).cache fm.1 =
        cacheLookup st.cache fm.1 := by
  intro l
  induction l with
  | nil => intro st fm _ hm; simp at hm
  | cons hd rest ih =>
    intro st fm hnd hm hstep
    rw [List.map_cons, List.nodup_cons] at hnd
    cases hm with
    | head =>
      rw [List.foldl_cons]
      constructor
      · apply foldPF_reports_mono
        rw [(hstep st).2]
        exact List.mem_append_right _ (by simp)
      · rw [foldPF_cache_frame env rid te rest _ hd.1 hnd.1, (hstep st).1]
    | tail _ hmem =>
      have hne : ¬fm.1 = hd.1 := by
        intro e
        exact hnd.1 (e ▸ List.mem_map_of_mem Prod.fst hmem)
      rw [List.foldl_cons]
      obtain ⟨hrep, hcache⟩ := ih (processFile env rid te st hd) fm hnd.2 hmem hstep
      exact ⟨hrep, hcache.trans (processFile_cache_lookup_other env rid te st hd fm.1 hne)⟩

/-- C8: with the per-file try/catch, one bad file never poisons the run:
the run still finishes with the full work-set count; a file rejected by
the text heuristic gets a skip report and its cache entry is untouched; a
file whose read throws gets a failure report and its cache entry is
untouched; every file that processes cleanly is committed with exactly its
produced batch and its fresh cache entry; and the remaining exception
sources named by the claim also leave the cache entry uncommitted with a
failure report: a file whose engine delete throws or whose filter is
malformed (quote in the path), and a file whose non-empty batch insert
throws. -/
theorem c8_per_file_isolation (env : RunEnv) (rid : Nat) (cache0 : Cache)
    (index0 : IndexState)
    (hnd : (env.files.map Prod.fst).Nodup)
    (ha : env.abortAfter = none)
    (hwf : env.writeFails = false)
    (hw : ¬workOf env cache0 = [])
    (hnf : index0.tableExists = true ∨ ∃ v, env.embed "sample" = some v) :
    (execute env rid cache0 index0).status =
      RunStatus.finished (workOf env cache0).length ∧
    (∀ fm ∈ workOf env cache0, env.loadable fm.1 = false →
      (fm.1, FileOutcome.skippedNonText) ∈ (execute env rid cache0 index0).reports ∧
      cacheLookup (execute env rid cache0 index0).cache fm.1 =
        cacheLookup cache0 fm.1) ∧
    (∀ fm ∈ workOf env cache0, env.loadable fm.1 = true → env.readFails fm.1 = true →
      (fm.1, FileOutcome.failed) ∈ (execute env rid cache0 index0).reports ∧
      cacheLookup (execute env rid cache0 index0).cache fm.1 =
        cacheLookup cache0 fm.1) ∧
    (∀ fm ∈ workOf env cache0, goodFile env fm.1 →
      (fm.1, FileOutcome.committed (committedData env rid fm.1)) ∈
        (execute env rid cache0 index0).reports ∧
      cacheLookup (execute env rid cache0 index0).cache fm.1 =
        some { mtime := fm.2, fileId := env.hashFn fm.1 }) ∧
    (∀ fm ∈ workOf env cache0, env.loadable fm.1 = true → env.readFails fm.1 = false →
      index0.tableExists = true →
      (env.deleteFails fm.1 = true ∨ quoteChar ∈ fm.1.data) →
      (fm.1, FileOutcome.failed) ∈ (execute env rid cache0 index0).reports ∧
      cacheLookup (execute env rid cache0 index0).cache fm.1 =
        cacheLookup cache0 fm.1) ∧
    (∀ fm ∈ workOf env cache0, env.loadable fm.1 = true → env.readFails fm.1 = false →
      (index0.tableExists = true →
        env.deleteFails fm.1 = false ∧ quoteChar ∉ fm.1.data) →
      env.addFails fm.1 = true → ¬committedData env rid fm.1 = [] →
      (fm.1, FileOutcome.failed) ∈ (execute env rid cache0 index0).reports ∧
      cacheLookup (execute env rid cache0 index0).cache fm.1 =
        cacheLookup cache0 fm.1) := by
  have hndw : ((workEffOf env cache0).map Prod.fst).Nodup :=
    workEff_paths_nodup env cache0 hnd
  have hweff : workEffOf env cache0 = workOf env cache0 := workEff_eq_work env cache0 ha
  have hmain : ∀ (te : Bool) (recs0 : List VecRecord) (calls0 muts0 : Nat),
      index0.tableExists = te →
      (∀ fm ∈ workOf env cache0, env.loadable fm.1 = false →
        (fm.1, FileOutcome.skippedNonText) ∈
          (loopStateOf env rid te cache0 recs0 calls0 muts0).reports ∧
        cacheLookup (loopStateOf env rid te cache0 recs0 calls0 muts0).cache fm.1 =
          cacheLookup cache0 fm.1) ∧
      (∀ fm ∈ workOf env cache0, env.loadable fm.1 = true → env.readFails fm.1 = true →
        (fm.1, FileOutcome.failed) ∈
          (loopStateOf env rid te cache0 recs0 calls0 muts0).reports ∧
        cacheLookup (loopStateOf env rid te cache0 recs0 calls0 muts0).cache fm.1 =
          cacheLookup cache0 fm.1) ∧
      (∀ fm ∈ workOf env cache0, goodFile env fm.1 →
        (fm.1, FileOutcome.committed (committedData env rid fm.1)) ∈
          (loopStateOf env rid te cache0 recs0 calls0 muts0).reports ∧
        cacheLookup (loopStateOf env rid te cache0 recs0 calls0 muts0).cache fm.1 =
          some { mtime := fm.2, fileId := env.hashFn fm.1 }) ∧
      (∀ fm ∈ workOf env cache0, env.loadable fm.1 = true → env.readFails fm.1 = false →
        index0.tableExists = true →
        (env.deleteFails fm.1 = true ∨ quoteChar ∈ fm.1.data) →
        (fm.1, FileOutcome.failed) ∈
          (loopStateOf env rid te cache0 recs0 calls0 muts0).reports ∧
        cacheLookup (loopStateOf env rid te cache0 recs0 calls0 muts0).cache fm.1 =
          cacheLookup cache0 fm.1) ∧
      (∀ fm ∈ workOf env cache0, env.loadable fm.1 = true → env.readFails fm.1 = false →
        (index0.tableExists = true →
          env.deleteFails fm.1 = false ∧ quoteChar ∉ fm.1.data) →
        env.addFails fm.1 = true → ¬committedData env rid fm.1 = [] →
        (fm.1, FileOutcome.failed) ∈
          (loopStateOf env rid te cache0 recs0 calls0 muts0).reports ∧
        cacheLookup (loopStateOf env rid te cache0 recs0 calls0 muts0).cache fm.1 =
          cacheLookup cache0 fm.1) := by
    intro te recs0 calls0 muts0 hTE
    refine ⟨?_, ?_, ?_, ?_, ?_⟩
    · intro fm hm hl
      rw [← hweff] at hm
      unfold loopStateOf
      exact ⟨foldPF_reports_skipped env rid te _ _ fm hm hl,
        foldPF_noncommit_cache env rid te _ _ hndw fm hm (Or.inl hl)⟩
    · intro fm hm hl hrf
      rw [← hweff] at hm
      unfold loopStateOf
      exact ⟨foldPF_reports_failed env rid te _ _ fm hm hl hrf,
        foldPF_noncommit_cache env rid te _ _ hndw fm hm (Or.inr hrf)⟩
    · intro fm hm hg
      rw [← hweff] at hm
      unfold loopStateOf
      exact ⟨foldPF_reports_committed env rid te _ _ fm hm hg,
        foldPF_commit_cache env rid te _ _ hndw fm hm hg⟩
    · intro fm hm h1 h2 hte2 hdel
      have hteq : te = true := hTE.symm.trans hte2
      rw [← hweff] at hm
      unfold loopStateOf
      exact foldPF_failed_at env rid te _ _ fm hndw hm
        (fun st2 => processFile_deleteFail env rid te st2 fm h1 h2 hteq hdel)
    · intro fm hm h1 h2 hok hadd hne
      have hdel : te = false ∨
          (env.deleteFails fm.1 = false ∧ quoteChar ∉ fm.1.data) := by
        by_cases hb : te = true
        · exact Or.inr (hok (hTE.trans hb))
        · exact Or.inl (by simpa using hb)
      rw [← hweff] at hm
      unfold loopStateOf
      exact foldPF_failed_at env rid te _ _ fm hndw hm
        (fun st2 => processFile_addFail env rid te st2 fm h1 h2 hdel hadd hne)
  rcases hnf with hte | ⟨v, hv⟩
  · rw [execute_te_true env rid cache0 index0 hw hte, hwf]
    simp only [Bool.false_eq_true, if_false, finishResult]
    exact ⟨trivial, hmain true index0.records 0 0 hte⟩
  · by_cases hte : index0.tableExists = true
    · rw [execute_te_true env rid cache0 index0 hw hte, hwf]
      simp only [Bool.false_eq_true, if_false, finishResult]
      exact ⟨trivial, hmain true index0.records 0 0 hte⟩
    · rw [execute_te_false_some env rid cache0 index0 v hw (by simpa using hte) hv, hwf]
      simp only [Bool.false_eq_true, if_false, finishResult]
      exact ⟨trivial, hmain false [sampleRecord v rid] 1 1 (by simpa using hte)⟩

/-- Witness for C8 at two concrete environments: in the ten-file corpus
the run finishes, the nine text files are cached and the
binary-disguised file is skipped with no cache entry; in the
failure-injection corpus the delete-throwing and insert-throwing files
get failure reports and no cache entries while the clean file commits. -/
theorem c8_witness :
    (execute wEnvTen 1 [] { tableExists := true, records := [] }).status =
      RunStatus.finished 10 ∧
    ("bin", FileOutcome.skippedNonText) ∈
      (execute wEnvTen 1 [] { tableExists := true, records := [] }).reports ∧
    cacheLookup (execute wEnvTen 1 [] { tableExists := true, records := [] }).cache
      "bin" = none ∧
    cacheLookup (execute wEnvTen 1 [] { tableExists := true, records := [] }).cache
      "t1" = some { mtime := 1, fileId := "t1" } ∧
    ("dbad", FileOutcome.failed) ∈
      (execute wEnvFail 1 [] { tableExists := true, records := [] }).reports ∧
    cacheLookup (execute wEnvFail 1 [] { tableExists := true, records := [] }).cache
      "dbad" = none ∧
    ("abad", FileOutcome.failed) ∈
      (execute wEnvFail 1 [] { tableExists := true, records := [] }).reports ∧
    cacheLookup (execute wEnvFail 1 [] { tableExists := true, records := [] }).cache
      "abad" = none ∧
    cacheLookup (execute wEnvFail 1 [] { tableExists := true, records := [] }).cache
      "t1" = some { mtime := 1, fileId := "t1" } := by
  have h := c8_per_file_isolation wEnvTen 1 [] { tableExists := true, records := [] }
    (by decide) rfl rfl (by decide) (Or.inl rfl)
  have h2 := c8_per_file_isolation wEnvFail 1 [] { tableExists := true, records := [] }
    (by decide) rfl rfl (by decide) (Or.inl rfl)
  refine ⟨h.1, ?_, ?_, ?_, ?_, ?_, ?_, ?_, ?_⟩
  · exact (h.2.1 ("bin", 1) (by decide) (by decide)).1
  · exact (h.2.1 ("bin", 1) (by decide) (by decide)).2
  · exact (h.2.2.2.1 ("t1", 1) (by decide) (by decide)).2
  · exact (h2.2.2.2.2.1 ("dbad", 1) (by decide) (by decide) (by decide) rfl
      (Or.inl (by decide))).1
  · exact (h2.2.2.2.2.1 ("dbad", 1) (by decide) (by decide) (by decide) rfl
      (Or.inl (by decide))).2
  · exact (h2.2.2.2.2.2 ("abad", 1) (by decide) (by decide) (by decide)
      (fun _ => by decide) (by decide) (by decide)).1
  · exact (h2.2.2.2.2.2 ("abad", 1) (by decide) (by decide) (by decide)
      (fun _ => by decide) (by decide) (by decide)).2
  · exact (h2.2.2.2.1 ("t1", 1) (by decide) (by decide)).2
